import Mathlib

/-!
Verification of the BPE visualizer tokenization engine (file app/bpe.ts of the
repository). JavaScript strings are modelled as lists of Unicode code points
(`List Nat`); a token (`Token`) is such a list. The byte-level engine is
embedded faithfully: the GPT-2 byte-to-unicode table, the UTF-8 encoder used
through TextEncoder, the GPT-2 pre-tokenization pattern, the pair-frequency
table (a JavaScript Map, modelled as an insertion-ordered association list),
the left-to-right merge pass, and the main merge loop of runBPE.
-/

set_option maxRecDepth 4000
set_option maxHeartbeats 1600000

/-- Tokens are JavaScript strings, modelled as lists of Unicode code points. -/
abbrev Token : Type := List Nat

/-- Record of one step of the algorithm, mirroring the BPEStep interface of
bpe.types.ts: stepIndex, mergedPair, frequency, newToken, tokens. -/
structure BPEStep where
  stepIndex : Nat
  mergedPair : Option (Token × Token)
  frequency : Option Nat
  newToken : Option Token
  tokens : List Token
deriving DecidableEq, Repr

/-- Result record of runBPE, mirroring the BPEResult interface. -/
structure BPEResult where
  steps : List BPEStep
deriving DecidableEq, Repr

/-! ## Byte/Unicode symbol mapper (function bytesToUnicode of bpe.ts) -/

/-- Bytes pushed by the three initial loops of bytesToUnicode: the visible
ASCII range 33..126, then the Latin-1 ranges 161..172 and 174..255. -/
def bsInitial : List Nat :=
  List.range' 33 94 ++ (List.range' 161 12 ++ List.range' 174 82)

/-- Remaining bytes, collected by the final loop of bytesToUnicode in
increasing byte order. -/
def bsExtra : List Nat :=
  (List.range 256).filter (fun b => !(bsInitial.contains b))

/-- Full list of byte keys, in insertion order. -/
def bsAll : List Nat := bsInitial ++ bsExtra

/-- Full list of mapped code points: the initial bytes map to themselves, the
remaining bytes map to consecutive code points starting at 256. -/
def csAll : List Nat := bsInitial ++ (List.range bsExtra.length).map (fun n => 256 + n)

/-- The byte-to-unicode table, as the association list zipping byte keys with
mapped code points (the Map built by bytesToUnicode). -/
def BYTE_TO_UNICODE : List (Nat × Nat) := bsAll.zip csAll

/-- Lookup in an association list with Nat keys, defaulting to 0. -/
def natLookupD : List (Nat × Nat) → Nat → Nat
  | [], _ => 0
  | (k, v) :: rest, key => if k = key then v else natLookupD rest key

/-- The code point a byte is mapped to (the value BYTE_TO_UNICODE.get(b)
asserted non-null in the source; the default 0 is never hit for b < 256). -/
def byteToUnicodeChar (b : Nat) : Nat := natLookupD BYTE_TO_UNICODE b

/-- Inverse direction of the byte-to-unicode table, used to state the
concatenation invariant: the byte a mapped code point came from. -/
def unicodeToByte (c : Nat) : Nat :=
  natLookupD (BYTE_TO_UNICODE.map (fun p => (p.2, p.1))) c

/-- Explicit literal form of the table, used to evaluate table lookups
quickly inside decidable checks. -/
def byteTableLit : List (Nat × Nat) :=
[
  (33, 33), (34, 34), (35, 35), (36, 36), (37, 37), (38, 38), (39, 39), (40, 40), (41, 41),
  (42, 42), (43, 43), (44, 44), (45, 45), (46, 46), (47, 47), (48, 48), (49, 49), (50, 50),
  (51, 51), (52, 52), (53, 53), (54, 54), (55, 55), (56, 56), (57, 57), (58, 58), (59, 59),
  (60, 60), (61, 61), (62, 62), (63, 63), (64, 64), (65, 65), (66, 66), (67, 67), (68, 68),
  (69, 69), (70, 70), (71, 71), (72, 72), (73, 73), (74, 74), (75, 75), (76, 76), (77, 77),
  (78, 78), (79, 79), (80, 80), (81, 81), (82, 82), (83, 83), (84, 84), (85, 85), (86, 86),
  (87, 87), (88, 88), (89, 89), (90, 90), (91, 91), (92, 92), (93, 93), (94, 94), (95, 95),
  (96, 96), (97, 97), (98, 98), (99, 99), (100, 100), (101, 101), (102, 102), (103, 103),
  (104, 104), (105, 105), (106, 106), (107, 107), (108, 108), (109, 109), (110, 110), (111, 111),
  (112, 112), (113, 113), (114, 114), (115, 115), (116, 116), (117, 117), (118, 118), (119, 119),
  (120, 120), (121, 121), (122, 122), (123, 123), (124, 124), (125, 125), (126, 126), (161, 161),
  (162, 162), (163, 163), (164, 164), (165, 165), (166, 166), (167, 167), (168, 168), (169, 169),
  (170, 170), (171, 171), (172, 172), (174, 174), (175, 175), (176, 176), (177, 177), (178, 178),
  (179, 179), (180, 180), (181, 181), (182, 182), (183, 183), (184, 184), (185, 185), (186, 186),
  (187, 187), (188, 188), (189, 189), (190, 190), (191, 191), (192, 192), (193, 193), (194, 194),
  (195, 195), (196, 196), (197, 197), (198, 198), (199, 199), (200, 200), (201, 201), (202, 202),
  (203, 203), (204, 204), (205, 205), (206, 206), (207, 207), (208, 208), (209, 209), (210, 210),
  (211, 211), (212, 212), (213, 213), (214, 214), (215, 215), (216, 216), (217, 217), (218, 218),
  (219, 219), (220, 220), (221, 221), (222, 222), (223, 223), (224, 224), (225, 225), (226, 226),
  (227, 227), (228, 228), (229, 229), (230, 230), (231, 231), (232, 232), (233, 233), (234, 234),
  (235, 235), (236, 236), (237, 237), (238, 238), (239, 239), (240, 240), (241, 241), (242, 242),
  (243, 243), (244, 244), (245, 245), (246, 246), (247, 247), (248, 248), (249, 249), (250, 250),
  (251, 251), (252, 252), (253, 253), (254, 254), (255, 255), (0, 256), (1, 257), (2, 258),
  (3, 259), (4, 260), (5, 261), (6, 262), (7, 263), (8, 264), (9, 265), (10, 266), (11, 267),
  (12, 268), (13, 269), (14, 270), (15, 271), (16, 272), (17, 273), (18, 274), (19, 275),
  (20, 276), (21, 277), (22, 278), (23, 279), (24, 280), (25, 281), (26, 282), (27, 283),
  (28, 284), (29, 285), (30, 286), (31, 287), (32, 288), (127, 289), (128, 290), (129, 291),
  (130, 292), (131, 293), (132, 294), (133, 295), (134, 296), (135, 297), (136, 298), (137, 299),
  (138, 300), (139, 301), (140, 302), (141, 303), (142, 304), (143, 305), (144, 306), (145, 307),
  (146, 308), (147, 309), (148, 310), (149, 311), (150, 312), (151, 313), (152, 314), (153, 315),
  (154, 316), (155, 317), (156, 318), (157, 319), (158, 320), (159, 321), (160, 322), (173, 323)
]

/-- Literal form of bsInitial, proved equal below. -/
def bsInitialLit : List Nat :=
[
  33, 34, 35, 36, 37, 38, 39, 40, 41, 42, 43, 44, 45, 46, 47, 48, 49, 50,
  51, 52, 53, 54, 55, 56, 57, 58, 59, 60, 61, 62, 63, 64, 65, 66, 67, 68,
  69, 70, 71, 72, 73, 74, 75, 76, 77, 78, 79, 80, 81, 82, 83, 84, 85, 86,
  87, 88, 89, 90, 91, 92, 93, 94, 95, 96, 97, 98, 99, 100, 101, 102, 103, 104,
  105, 106, 107, 108, 109, 110, 111, 112, 113, 114, 115, 116, 117, 118, 119, 120, 121, 122,
  123, 124, 125, 126, 161, 162, 163, 164, 165, 166, 167, 168, 169, 170, 171, 172, 174, 175,
  176, 177, 178, 179, 180, 181, 182, 183, 184, 185, 186, 187, 188, 189, 190, 191, 192, 193,
  194, 195, 196, 197, 198, 199, 200, 201, 202, 203, 204, 205, 206, 207, 208, 209, 210, 211,
  212, 213, 214, 215, 216, 217, 218, 219, 220, 221, 222, 223, 224, 225, 226, 227, 228, 229,
  230, 231, 232, 233, 234, 235, 236, 237, 238, 239, 240, 241, 242, 243, 244, 245, 246, 247,
  248, 249, 250, 251, 252, 253, 254, 255]

/-- Literal form of bsExtra, proved equal below. -/
def bsExtraLit : List Nat :=
[
  0, 1, 2, 3, 4, 5, 6, 7, 8, 9, 10, 11, 12, 13, 14, 15, 16, 17,
  18, 19, 20, 21, 22, 23, 24, 25, 26, 27, 28, 29, 30, 31, 32, 127, 128, 129,
  130, 131, 132, 133, 134, 135, 136, 137, 138, 139, 140, 141, 142, 143, 144, 145, 146, 147,
  148, 149, 150, 151, 152, 153, 154, 155, 156, 157, 158, 159, 160, 173]

theorem bsInitial_eq_lit : bsInitial = bsInitialLit := by decide

theorem bsExtra_eq_lit : bsExtra = bsExtraLit := by
  simp only [bsExtra, bsInitial_eq_lit]
  decide

theorem byteTable_eq_lit : BYTE_TO_UNICODE = byteTableLit := by
  simp only [BYTE_TO_UNICODE, bsAll, csAll, bsInitial_eq_lit, bsExtra_eq_lit]
  decide

/-- Membership of a byte in one of the three self-mapped source ranges. -/
def visibleByte (b : Nat) : Bool :=
  (33 ≤ b && b ≤ 126) || (161 ≤ b && b ≤ 172) || (174 ≤ b && b ≤ 255)

/-- C6. The byte-to-unicode table is defined on every byte value in [0,255]
and is a bijection onto 256 distinct code points: bytes in the visible ASCII
range and the two Latin-1 ranges map to their own code point, and all
remaining bytes, taken in increasing byte order, map to consecutive code
points starting at 256 (U+0100). -/
theorem byteMapper_bijective_ranges :
    BYTE_TO_UNICODE.length = 256 ∧
    (∀ b < 256, (BYTE_TO_UNICODE.map Prod.fst).contains b = true) ∧
    (BYTE_TO_UNICODE.map Prod.snd).Nodup ∧
    (∀ b < 256, visibleByte b = true → byteToUnicodeChar b = b) ∧
    bsExtra = (List.range 256).filter (fun b => !(visibleByte b)) ∧
    bsExtra.map (fun b => byteToUnicodeChar b) = List.range' 256 bsExtra.length := by
  refine ⟨?_, ?_, ?_, ?_, ?_, ?_⟩
  · simp only [byteTable_eq_lit]; decide
  · simp only [byteTable_eq_lit]; decide
  · simp only [byteTable_eq_lit]; decide
  · simp only [byteToUnicodeChar, byteTable_eq_lit]; decide
  · simp only [bsExtra_eq_lit]; decide
  · simp only [byteToUnicodeChar, byteTable_eq_lit, bsExtra_eq_lit]
    decide

/-! ## UTF-8 encoding (TextEncoder of encodeChunk) -/

/-- UTF-8 byte sequence of one Unicode scalar value, modelling what
TextEncoder().encode produces per code point of a chunk. -/
def utf8EncodeChar (c : Nat) : List Nat :=
  if c < 128 then [c]
  else if c < 2048 then [192 + c / 64, 128 + c % 64]
  else if c < 65536 then [224 + c / 4096, 128 + (c / 64) % 64, 128 + c % 64]
  else [240 + c / 262144, 128 + (c / 4096) % 64, 128 + (c / 64) % 64, 128 + c % 64]

/-- UTF-8 byte sequence of a string (list of code points). -/
def utf8Encode : List Nat → List Nat
  | [] => []
  | c :: rest => utf8EncodeChar c ++ utf8Encode rest

/-- Code point of a valid JavaScript string position: a Unicode scalar value
(surrogates excluded, below 0x110000). -/
def validChar (c : Nat) : Bool :=
  c < 55296 || (57344 ≤ c && c < 1114112)

/-- Texts whose code points are all Unicode scalar values, the domain of
JavaScript strings handled by TextEncoder without replacement characters. -/
abbrev ValidText (text : List Nat) : Prop := ∀ c ∈ text, validChar c = true

theorem utf8EncodeChar_lt_256 (c : Nat) (h : c < 1114112) :
    ∀ b ∈ utf8EncodeChar c, b < 256 := by
  intro b hb
  unfold utf8EncodeChar at hb
  split_ifs at hb with h1 h2 h3 <;> simp only [List.mem_cons, List.mem_singleton,
    List.not_mem_nil, or_false] at hb <;> rcases hb with rfl | hb <;> omega

theorem utf8EncodeChar_ne_nil (c : Nat) : utf8EncodeChar c ≠ [] := by
  unfold utf8EncodeChar
  split_ifs <;> simp

theorem utf8Encode_append (s t : List Nat) :
    utf8Encode (s ++ t) = utf8Encode s ++ utf8Encode t := by
  induction s with
  | nil => rfl
  | cons c rest ih => simp [utf8Encode, ih]

theorem utf8Encode_lt_256 (s : List Nat) (h : ∀ c ∈ s, validChar c = true) :
    ∀ b ∈ utf8Encode s, b < 256 := by
  induction s with
  | nil => intro b hb; simp [utf8Encode] at hb
  | cons c rest ih =>
    intro b hb
    simp only [utf8Encode, List.mem_append] at hb
    rcases hb with hb | hb
    · have hc := h c (List.mem_cons_self c rest)
      simp only [validChar, Bool.or_eq_true, decide_eq_true_eq,
        Bool.and_eq_true] at hc
      exact utf8EncodeChar_lt_256 c (by omega) b hb
    · exact ih (fun x hx => h x (List.mem_cons_of_mem c hx)) b hb

/-! ## Character classes of the GPT-2 pre-tokenization pattern -/

/-- Model of the ECMAScript whitespace class \s: tab through carriage return,
space, no-break space, ogham space mark, the en-quad..hair-space range, line
and paragraph separators, narrow no-break space, medium mathematical space,
ideographic space and the byte order mark. -/
def isSpaceChar (c : Nat) : Bool :=
  [9, 10, 11, 12, 13, 32, 160, 5760, 8232, 8233, 8239, 8287, 12288, 65279].contains c
  || (8192 ≤ c && c ≤ 8202)

/-- Model of the Unicode property \p{L} used by the source pattern, restricted
to the Basic Latin and Latin-1 Supplement blocks (the letter table of the full
Unicode database is outside the source; all theorems below use this class only
through its role in the match alternatives, never through specific members). -/
def isLetterChar (c : Nat) : Bool :=
  (65 ≤ c && c ≤ 90) || (97 ≤ c && c ≤ 122) || c == 170 || c == 181 || c == 186 ||
  (192 ≤ c && c ≤ 214) || (216 ≤ c && c ≤ 246) || (248 ≤ c && c ≤ 255)

/-- Model of the Unicode property \p{N}, restricted to the Basic Latin and
Latin-1 Supplement blocks: the ASCII digits, superscripts and fractions. -/
def isDigitChar (c : Nat) : Bool :=
  (48 ≤ c && c ≤ 57) || [178, 179, 185, 188, 189, 190].contains c

/-- The character class of the fourth alternative of the pattern: neither
whitespace nor letter nor number. -/
def isOtherChar (c : Nat) : Bool :=
  !(isSpaceChar c) && !(isLetterChar c) && !(isDigitChar c)

/-- Test on the first character of the remaining input. -/
def nextIs (p : Nat → Bool) : List Nat → Bool
  | c :: _ => p c
  | [] => false

/-! ## GPT-2 pre-tokenizer (GPT2_PAT and text.match of runBPE) -/

/-- Contraction alternatives of the pattern applied after an apostrophe
(code 39): the suffixes s, t, re, ve, m, ll, d. Their second characters are
pairwise distinct, so testing them in any order agrees with the ordered
alternation of the source pattern. -/
def gpt2ContractionTail (cs : List Nat) : Option (List Nat × List Nat) :=
  match cs with
  | [] => none
  | d :: rest =>
    if d == 115 || d == 116 || d == 109 || d == 100 then some ([39, d], rest)
    else
      match rest with
      | [] => none
      | e :: rest2 =>
        if (d == 114 || d == 118) && e == 101 then some ([39, d, e], rest2)
        else if d == 108 && e == 108 then some ([39, d, e], rest2)
        else none

/-- Non-contraction alternatives of the pattern, tried in source order at a
position whose first character is c: an optional leading space followed by a
maximal letter run, digit run or other-character run; then a whitespace run
kept one short of its end when more input follows (the negative lookahead),
and finally a plain whitespace run. -/
def gpt2GeneralMatch (c : Nat) (cs : List Nat) : List Nat × List Nat :=
  if c == 32 && nextIs isLetterChar cs then
    (32 :: cs.takeWhile isLetterChar, cs.dropWhile isLetterChar)
  else if isLetterChar c then
    (c :: cs.takeWhile isLetterChar, cs.dropWhile isLetterChar)
  else if c == 32 && nextIs isDigitChar cs then
    (32 :: cs.takeWhile isDigitChar, cs.dropWhile isDigitChar)
  else if isDigitChar c then
    (c :: cs.takeWhile isDigitChar, cs.dropWhile isDigitChar)
  else if c == 32 && nextIs isOtherChar cs then
    (32 :: cs.takeWhile isOtherChar, cs.dropWhile isOtherChar)
  else if isOtherChar c then
    (c :: cs.takeWhile isOtherChar, cs.dropWhile isOtherChar)
  else
    if ((c :: cs).dropWhile isSpaceChar).isEmpty then
      ((c :: cs).takeWhile isSpaceChar, (c :: cs).dropWhile isSpaceChar)
    else if 2 ≤ ((c :: cs).takeWhile isSpaceChar).length then
      (((c :: cs).takeWhile isSpaceChar).take (((c :: cs).takeWhile isSpaceChar).length - 1),
       ((c :: cs).takeWhile isSpaceChar).drop (((c :: cs).takeWhile isSpaceChar).length - 1)
         ++ (c :: cs).dropWhile isSpaceChar)
    else ((c :: cs).takeWhile isSpaceChar, (c :: cs).dropWhile isSpaceChar)

/-- First match of the GPT-2 pattern on the input, returned with the input
remaining after it; ([], []) on empty input, where the source match call
finds nothing. -/
def gpt2NextMatch (l : List Nat) : List Nat × List Nat :=
  match l with
  | [] => ([], [])
  | c :: cs =>
    if c = 39 then
      match gpt2ContractionTail cs with
      | some m => m
      | none => gpt2GeneralMatch c cs
    else gpt2GeneralMatch c cs

/-- All matches of the pattern in order, by repeated anchored matching; the
fuel argument bounds the recursion and is instantiated with the input length,
which suffices because every match is non-empty. -/
def gpt2TokenizeFuel : Nat → List Nat → List (List Nat)
  | 0, _ => []
  | _ + 1, [] => []
  | fuel + 1, c :: cs =>
    (gpt2NextMatch (c :: cs)).1 :: gpt2TokenizeFuel fuel (gpt2NextMatch (c :: cs)).2

/-- The chunk list text.match(GPT2_PAT) produces (an empty list standing for
the null result on empty input). -/
def gpt2Tokenize (text : List Nat) : List (List Nat) :=
  gpt2TokenizeFuel text.length text

theorem gpt2ContractionTail_spec :
    ∀ cs m r, gpt2ContractionTail cs = some (m, r) → m ≠ [] ∧ m ++ r = 39 :: cs := by
  intro cs m r h
  unfold gpt2ContractionTail at h
  repeat' split at h
  all_goals simp only [Option.some.injEq, Prod.mk.injEq, reduceCtorEq] at h
  all_goals obtain ⟨hm, hr⟩ := h
  all_goals subst hm
  all_goals subst hr
  all_goals exact ⟨by simp, by simp⟩

theorem gpt2GeneralMatch_spec (c : Nat) (cs : List Nat) :
    (gpt2GeneralMatch c cs).1 ≠ [] ∧
    (gpt2GeneralMatch c cs).1 ++ (gpt2GeneralMatch c cs).2 = c :: cs := by
  unfold gpt2GeneralMatch
  split_ifs with h1 h2 h3 h4 h5 h6 h7 h8
  · obtain ⟨hc, -⟩ := Bool.and_eq_true_iff.mp h1
    have hc32 : c = 32 := by simpa using hc
    subst hc32
    exact ⟨by simp, by simp [List.takeWhile_append_dropWhile]⟩
  · exact ⟨by simp, by simp [List.takeWhile_append_dropWhile]⟩
  · obtain ⟨hc, -⟩ := Bool.and_eq_true_iff.mp h3
    have hc32 : c = 32 := by simpa using hc
    subst hc32
    exact ⟨by simp, by simp [List.takeWhile_append_dropWhile]⟩
  · exact ⟨by simp, by simp [List.takeWhile_append_dropWhile]⟩
  · obtain ⟨hc, -⟩ := Bool.and_eq_true_iff.mp h5
    have hc32 : c = 32 := by simpa using hc
    subst hc32
    exact ⟨by simp, by simp [List.takeWhile_append_dropWhile]⟩
  · exact ⟨by simp, by simp [List.takeWhile_append_dropWhile]⟩
  · have hs : isSpaceChar c = true := by
      have h2f : isLetterChar c = false := Bool.eq_false_iff.mpr h2
      have h4f : isDigitChar c = false := Bool.eq_false_iff.mpr h4
      have h6f : isOtherChar c = false := Bool.eq_false_iff.mpr h6
      simpa [isOtherChar, h2f, h4f] using h6f
    constructor
    · simp [List.takeWhile_cons_of_pos hs]
    · exact List.takeWhile_append_dropWhile _ _
  · constructor
    · have hlen : 1 ≤ ((c :: cs).takeWhile isSpaceChar).length - 1 := by omega
      intro hnil
      have := congrArg List.length hnil
      simp [List.length_take] at this
      omega
    · rw [← List.append_assoc, List.take_append_drop]
      exact List.takeWhile_append_dropWhile _ _
  · have hs : isSpaceChar c = true := by
      have h2f : isLetterChar c = false := Bool.eq_false_iff.mpr h2
      have h4f : isDigitChar c = false := Bool.eq_false_iff.mpr h4
      have h6f : isOtherChar c = false := Bool.eq_false_iff.mpr h6
      simpa [isOtherChar, h2f, h4f] using h6f
    constructor
    · simp [List.takeWhile_cons_of_pos hs]
    · exact List.takeWhile_append_dropWhile _ _

theorem gpt2NextMatch_spec (l : List Nat) (h : l ≠ []) :
    (gpt2NextMatch l).1 ≠ [] ∧ (gpt2NextMatch l).1 ++ (gpt2NextMatch l).2 = l := by
  match l with
  | [] => exact absurd rfl h
  | c :: cs =>
    unfold gpt2NextMatch
    by_cases hc : c = 39
    · subst hc
      simp only [if_pos rfl]
      cases hct : gpt2ContractionTail cs with
      | none => exact gpt2GeneralMatch_spec 39 cs
      | some p =>
        obtain ⟨m, r⟩ := p
        exact gpt2ContractionTail_spec cs m r hct
    · simp only [if_neg hc]
      exact gpt2GeneralMatch_spec c cs

theorem gpt2NextMatch_snd_lt (l : List Nat) (h : l ≠ []) :
    (gpt2NextMatch l).2.length < l.length := by
  obtain ⟨h1, h2⟩ := gpt2NextMatch_spec l h
  have := congrArg List.length h2
  simp only [List.length_append] at this
  have : 1 ≤ (gpt2NextMatch l).1.length := by
    cases hm : (gpt2NextMatch l).1 with
    | nil => exact absurd hm h1
    | cons a t => simp
  omega

theorem gpt2TokenizeFuel_flatten :
    ∀ fuel l, l.length ≤ fuel → (gpt2TokenizeFuel fuel l).flatten = l := by
  intro fuel
  induction fuel with
  | zero =>
    intro l h
    have : l = [] := List.eq_nil_of_length_eq_zero (by omega)
    subst this
    rfl
  | succ f ih =>
    intro l h
    match l with
    | [] => rfl
    | c :: cs =>
      have hne : (c :: cs) ≠ [] := by simp
      obtain ⟨h1, h2⟩ := gpt2NextMatch_spec (c :: cs) hne
      have hlt := gpt2NextMatch_snd_lt (c :: cs) hne
      simp only [gpt2TokenizeFuel, List.flatten_cons]
      rw [ih _ (by simp at hlt h ⊢; omega)]
      exact h2

theorem gpt2TokenizeFuel_mem_ne_nil :
    ∀ fuel l, ∀ m ∈ gpt2TokenizeFuel fuel l, m ≠ [] := by
  intro fuel
  induction fuel with
  | zero => intro l m hm; simp [gpt2TokenizeFuel] at hm
  | succ f ih =>
    intro l m hm
    match l with
    | [] => simp [gpt2TokenizeFuel] at hm
    | c :: cs =>
      simp only [gpt2TokenizeFuel, List.mem_cons] at hm
      rcases hm with rfl | hm
      · exact (gpt2NextMatch_spec (c :: cs) (by simp)).1
      · exact ih _ m hm

theorem gpt2Tokenize_flatten (text : List Nat) : (gpt2Tokenize text).flatten = text :=
  gpt2TokenizeFuel_flatten text.length text le_rfl

theorem gpt2Tokenize_mem_ne_nil (text : List Nat) :
    ∀ m ∈ gpt2Tokenize text, m ≠ [] :=
  gpt2TokenizeFuel_mem_ne_nil text.length text

theorem gpt2Tokenize_ne_nil (text : List Nat) (h : text ≠ []) :
    gpt2Tokenize text ≠ [] := by
  match text with
  | [] => exact absurd rfl h
  | c :: cs => simp [gpt2Tokenize, gpt2TokenizeFuel]

/-! ## Chunk encoding (encodeChunk of bpe.ts) -/

/-- Initial token sequence of a chunk: its UTF-8 bytes, each rendered through
the byte-to-unicode table as a one-character token. -/
def encodeChunk (chunk : List Nat) : List Token :=
  (utf8Encode chunk).map (fun b => [byteToUnicodeChar b])

/-! ## Pair frequency table (PAIR_SEP, countPairsAcrossChunks, selection) -/

/-- Key of a pair in the frequency Map: the two tokens joined with the NUL
separator PAIR_SEP. -/
def pairKey (a b : Token) : List Nat := a ++ 0 :: b

/-- Lookup in the frequency table, defaulting to 0, modelling
counts.get(key) ?? 0. -/
def keyLookupD : List (List Nat × Nat) → List Nat → Nat
  | [], _ => 0
  | (k, v) :: rest, key => if k = key then v else keyLookupD rest key

/-- One counts.set(key, (counts.get(key) ?? 0) + 1) update: a present key is
incremented in place, keeping its insertion position; an absent key is
appended. This models the insertion-order iteration of a JavaScript Map. -/
def bumpKey : List (List Nat × Nat) → List Nat → List (List Nat × Nat)
  | [], key => [(key, 1)]
  | (k, v) :: rest, key =>
    if k = key then (k, v + 1) :: rest else (k, v) :: bumpKey rest key

/-- Inner loops of countPairsAcrossChunks over one chunk: every adjacent pair
of tokens bumps its key, scanning left to right. -/
def countPairsInto (m : List (List Nat × Nat)) : List Token → List (List Nat × Nat)
  | x :: y :: rest => countPairsInto (bumpKey m (pairKey x y)) (y :: rest)
  | _ => m

/-- The pair frequency table aggregated across all chunks, in first-encounter
insertion order. -/
def countPairsAcrossChunks (chunks : List (List Token)) : List (List Nat × Nat) :=
  chunks.foldl countPairsInto []

/-- Selection loop of runBPE over the frequency table: starting from an empty
best key and frequency 0, every strictly greater frequency replaces the
current best, so the first entry attaining the maximum wins. -/
def selectBest (counts : List (List Nat × Nat)) : List Nat × Nat :=
  counts.foldl (fun best kv => if kv.2 > best.2 then kv else best) ([], 0)

/-- JavaScript String.split on the NUL separator. -/
def splitOnZero : List Nat → List (List Nat)
  | [] => [[]]
  | c :: rest =>
    if c = 0 then [] :: splitOnZero rest
    else
      match splitOnZero rest with
      | h :: t => (c :: h) :: t
      | [] => [[c]]

/-- The cast bestKey.split(PAIR_SEP) as [Token, Token]: the first two parts
of the split. Keys produced by countPairsAcrossChunks always contain the
separator, so the split has at least two parts; the last two fallback arms
are never reached from runBPE. -/
def pairFromKey (key : List Nat) : Token × Token :=
  match splitOnZero key with
  | a :: b :: _ => (a, b)
  | [a] => (a, [])
  | [] => ([], [])

/-! ## Merge pass (mergePairInChunk of bpe.ts) -/

/-- Merge pass over one chunk, translating the index loop of
mergePairInChunk: when the two tokens at the cursor equal the pair, the
merged token is emitted and the cursor advances by two positions, otherwise
the current token is emitted and the cursor advances by one. -/
def mergePairInChunk (tokens : List Token) (pair : Token × Token) : List Token :=
  match tokens with
  | x :: y :: rest =>
    if x = pair.1 ∧ y = pair.2 then
      (pair.1 ++ pair.2) :: mergePairInChunk rest pair
    else
      x :: mergePairInChunk (y :: rest) pair
  | l => l

/-- Number of replacements the merge pass performs on one chunk. -/
def mergeCount (pair : Token × Token) : List Token → Nat
  | x :: y :: rest =>
    if x = pair.1 ∧ y = pair.2 then 1 + mergeCount pair rest
    else mergeCount pair (y :: rest)
  | _ => 0

/-- Number of adjacent occurrences of the exact pair (a, b) in a chunk,
counted at every position (overlapping occurrences included), as the
frequency scan counts them. -/
def countAdj (a b : Token) : List Token → Nat
  | x :: y :: rest => (if x = a ∧ y = b then 1 else 0) + countAdj a b (y :: rest)
  | _ => 0

/-- Number of adjacent positions of a chunk whose pair produces a given
frequency key. -/
def countAdjKey (key : List Nat) : List Token → Nat
  | x :: y :: rest => (if pairKey x y = key then 1 else 0) + countAdjKey key (y :: rest)
  | _ => 0

/-- Index of the first adjacent occurrence of the pair (a, b). -/
def findPairIdx (a b : Token) : List Token → Option Nat
  | x :: y :: rest =>
    if x = a ∧ y = b then some 0
    else (findPairIdx a b (y :: rest)).map (fun i => i + 1)
  | _ => none

/-- Modelled from the spec: replace every non-overlapping left-to-right
occurrence of the exact adjacent pair with a single new symbol equal to the
concatenation of the two tokens, the scan resuming after the merged
position. Defined by repeatedly locating the first remaining occurrence; the
fuel argument (instantiated with the list length) bounds the recursion. -/
def mergeGreedyFuel (a b : Token) : Nat → List Token → List Token
  | 0, l => l
  | fuel + 1, l =>
    match findPairIdx a b l with
    | none => l
    | some i => l.take i ++ (a ++ b) :: mergeGreedyFuel a b fuel (l.drop (i + 2))

/-- Entry point of the spec-side greedy replacement. -/
def mergeGreedy (a b : Token) (l : List Token) : List Token :=
  mergeGreedyFuel a b l.length l

/-! ## Main loop (runBPE of bpe.ts) -/

/-- Whether the optional merge bound stops the loop at this step index,
modelling maxMerges !== undefined && stepIndex > maxMerges. -/
def maxMergesHit (maxMerges : Option Nat) (stepIndex : Nat) : Bool :=
  match maxMerges with
  | some k => stepIndex > k
  | none => false

/-- Total number of tokens across the chunks. -/
def totalLen (chunks : List (List Token)) : Nat := (chunks.map List.length).sum

/-- The while loop of runBPE: count pairs, break on an empty table, select
the best pair, break below frequency 2 or past the merge bound, otherwise
merge the pair in every chunk and record the step. The fuel argument bounds
the recursion and is instantiated with the total token count, which suffices
because every performed merge removes at least one token (shown below as
bpeLoopFuel_stable). -/
def bpeLoopFuel : Nat → List (List Token) → Nat → Option Nat → List BPEStep
  | 0, _, _, _ => []
  | fuel + 1, chunks, stepIndex, maxMerges =>
    let counts := countPairsAcrossChunks chunks
    if counts = [] then []
    else
      let best := selectBest counts
      if best.2 < 2 then []
      else if maxMergesHit maxMerges stepIndex then []
      else
        let pair := pairFromKey best.1
        let chunks2 := chunks.map (fun c => mergePairInChunk c pair)
        ⟨stepIndex, some pair, some best.2, some (pair.1 ++ pair.2), chunks2.flatten⟩ ::
          bpeLoopFuel fuel chunks2 (stepIndex + 1) maxMerges

/-- The engine entry point runBPE of bpe.ts: empty input gives an empty
trace, a null match result gives an empty trace, and otherwise step 0 is
recorded for the initial chunks and the merge loop produces the rest. -/
def runBPE (text : List Nat) (maxMerges : Option Nat) : BPEResult :=
  if text.length = 0 then ⟨[]⟩
  else
    let ms := gpt2Tokenize text
    if ms.length = 0 then ⟨[]⟩
    else
      let chunks := ms.map encodeChunk
      ⟨⟨0, none, none, none, chunks.flatten⟩ ::
        bpeLoopFuel (totalLen chunks) chunks 1 maxMerges⟩

/-! ## Lemmas about the merge pass -/

theorem mergePairInChunk_length : ∀ (l : List Token) (p : Token × Token),
    (mergePairInChunk l p).length + mergeCount p l = l.length
  | [], _ => rfl
  | [_], _ => rfl
  | x :: y :: rest, p => by
    by_cases hxy : x = p.1 ∧ y = p.2
    · simp only [mergePairInChunk, mergeCount, if_pos hxy, List.length_cons]
      have := mergePairInChunk_length rest p
      omega
    · simp only [mergePairInChunk, mergeCount, if_neg hxy, List.length_cons]
      have := mergePairInChunk_length (y :: rest) p
      simp only [List.length_cons] at this
      omega

theorem mergePairInChunk_length_le (l : List Token) (p : Token × Token) :
    (mergePairInChunk l p).length ≤ l.length := by
  have := mergePairInChunk_length l p
  omega

theorem mergeCount_pos : ∀ (l : List Token) (a b : Token),
    0 < countAdj a b l → 0 < mergeCount (a, b) l
  | [], a, b, h => by simp [countAdj] at h
  | [_], a, b, h => by simp [countAdj] at h
  | x :: y :: rest, a, b, h => by
    by_cases hxy : x = a ∧ y = b
    · simp only [mergeCount, if_pos hxy]
      omega
    · simp only [countAdj, if_neg hxy, Nat.zero_add] at h
      simp only [mergeCount, if_neg hxy]
      exact mergeCount_pos (y :: rest) a b h

theorem mergePairInChunk_lt_of_countAdj (l : List Token) (a b : Token)
    (h : 0 < countAdj a b l) :
    (mergePairInChunk l (a, b)).length < l.length := by
  have h1 := mergePairInChunk_length l (a, b)
  have h2 := mergeCount_pos l a b h
  omega

theorem mergePairInChunk_flatten : ∀ (l : List Token) (p : Token × Token),
    (mergePairInChunk l p).flatten = l.flatten
  | [], _ => rfl
  | [_], _ => rfl
  | x :: y :: rest, p => by
    by_cases hxy : x = p.1 ∧ y = p.2
    · obtain ⟨hx, hy⟩ := hxy
      simp only [mergePairInChunk, if_pos (And.intro hx hy), List.flatten_cons]
      rw [mergePairInChunk_flatten rest p, hx, hy, List.append_assoc]
    · simp only [mergePairInChunk, if_neg hxy, List.flatten_cons]
      rw [mergePairInChunk_flatten (y :: rest) p]
      simp [List.flatten_cons]

theorem mergePairInChunk_mem : ∀ (l : List Token) (p : Token × Token) (t : Token),
    t ∈ mergePairInChunk l p → t ∈ l ∨ t = p.1 ++ p.2
  | [], p, t, h => by simp [mergePairInChunk] at h
  | [x], p, t, h => by
    simp only [mergePairInChunk] at h
    exact Or.inl h
  | x :: y :: rest, p, t, h => by
    by_cases hxy : x = p.1 ∧ y = p.2
    · simp only [mergePairInChunk, if_pos hxy, List.mem_cons] at h
      rcases h with rfl | h
      · exact Or.inr rfl
      · rcases mergePairInChunk_mem rest p t h with h | h
        · exact Or.inl (by simp [h])
        · exact Or.inr h
    · simp only [mergePairInChunk, if_neg hxy, List.mem_cons] at h
      rcases h with rfl | h
      · exact Or.inl (by simp)
      · rcases mergePairInChunk_mem (y :: rest) p t h with h | h
        · exact Or.inl (by simp [List.mem_cons] at h ⊢; tauto)
        · exact Or.inr h

/-! ## Lemmas relating the merge pass to the greedy replacement -/

theorem findPairIdx_some_le : ∀ (l : List Token) (a b : Token) (i : Nat),
    findPairIdx a b l = some i → i + 2 ≤ l.length
  | [], a, b, i, h => by simp [findPairIdx] at h
  | [_], a, b, i, h => by simp [findPairIdx] at h
  | x :: y :: rest, a, b, i, h => by
    by_cases hxy : x = a ∧ y = b
    · simp only [findPairIdx, if_pos hxy, Option.some.injEq] at h
      subst h
      simp
    · simp only [findPairIdx, if_neg hxy, Option.map_eq_some'] at h
      obtain ⟨j, hj, rfl⟩ := h
      have := findPairIdx_some_le (y :: rest) a b j hj
      simp only [List.length_cons] at this ⊢
      omega

theorem mergePairInChunk_of_none : ∀ (l : List Token) (a b : Token),
    findPairIdx a b l = none → mergePairInChunk l (a, b) = l
  | [], _, _, _ => rfl
  | [_], _, _, _ => rfl
  | x :: y :: rest, a, b, h => by
    by_cases hxy : x = a ∧ y = b
    · simp [findPairIdx, if_pos hxy] at h
    · simp only [findPairIdx, if_neg hxy, Option.map_eq_none'] at h
      simp only [mergePairInChunk, if_neg hxy]
      rw [mergePairInChunk_of_none (y :: rest) a b h]

theorem mergeGreedyFuel_congr (a b : Token) :
    ∀ f1 f2 l, l.length ≤ f1 → l.length ≤ f2 →
      mergeGreedyFuel a b f1 l = mergeGreedyFuel a b f2 l := by
  intro f1
  induction f1 with
  | zero =>
    intro f2 l h1 h2
    have : l = [] := List.eq_nil_of_length_eq_zero (by omega)
    subst this
    match f2 with
    | 0 => rfl
    | g + 1 => rfl
  | succ f ih =>
    intro f2 l h1 h2
    match f2 with
    | 0 =>
      have : l = [] := List.eq_nil_of_length_eq_zero (by omega)
      subst this
      rfl
    | g + 1 =>
      cases hf : findPairIdx a b l with
      | none => simp only [mergeGreedyFuel, hf]
      | some i =>
        have hle := findPairIdx_some_le l a b i hf
        simp only [mergeGreedyFuel, hf]
        rw [ih g (l.drop (i + 2)) (by simp [List.length_drop]; omega)
          (by simp [List.length_drop]; omega)]

theorem mergePairInChunk_eq_greedyFuel (a b : Token) :
    ∀ fuel l, l.length ≤ fuel → mergePairInChunk l (a, b) = mergeGreedyFuel a b fuel l := by
  intro fuel
  induction fuel with
  | zero =>
    intro l h
    have : l = [] := List.eq_nil_of_length_eq_zero (by omega)
    subst this
    rfl
  | succ f ih =>
    intro l h
    match l with
    | [] => rfl
    | [x] => rfl
    | x :: y :: rest =>
      simp only [List.length_cons] at h
      by_cases hxy : x = a ∧ y = b
      · simp only [mergePairInChunk, mergeGreedyFuel, findPairIdx, if_pos hxy,
          List.take_zero, List.nil_append, List.drop_succ_cons, List.drop_zero]
        rw [ih rest (by omega)]
      · have hfind : findPairIdx a b (x :: y :: rest)
            = (findPairIdx a b (y :: rest)).map (fun i => i + 1) := by
          simp [findPairIdx, if_neg hxy]
        have hL : mergePairInChunk (x :: y :: rest) (a, b)
            = x :: mergePairInChunk (y :: rest) (a, b) := by
          simp [mergePairInChunk, if_neg hxy]
        cases hf : findPairIdx a b (y :: rest) with
        | none =>
          have hOut : mergeGreedyFuel a b (f + 1) (x :: y :: rest) = x :: y :: rest := by
            simp only [mergeGreedyFuel, hfind, hf, Option.map_none']
          rw [hL, hOut, mergePairInChunk_of_none (y :: rest) a b hf]
        | some j =>
          have hle := findPairIdx_some_le (y :: rest) a b j hf
          simp only [List.length_cons] at hle
          obtain ⟨g, rfl⟩ : ∃ g, f = g + 1 := ⟨f - 1, by omega⟩
          have hOut : mergeGreedyFuel a b (g + 1 + 1) (x :: y :: rest)
              = List.take (j + 1) (x :: y :: rest) ++
                (a ++ b) :: mergeGreedyFuel a b (g + 1) ((x :: y :: rest).drop (j + 1 + 2)) := by
            simp only [mergeGreedyFuel, hfind, hf, Option.map_some']
          have hIn : mergeGreedyFuel a b (g + 1) (y :: rest)
              = List.take j (y :: rest) ++
                (a ++ b) :: mergeGreedyFuel a b g ((y :: rest).drop (j + 2)) := by
            simp only [mergeGreedyFuel, hf]
          rw [hL, hOut, ih (y :: rest) (by simp; omega), hIn]
          simp only [List.take_succ_cons, List.drop_succ_cons, List.cons_append]
          rw [mergeGreedyFuel_congr a b g (g + 1) (List.drop (j + 1) rest)
            (by simp [List.length_drop]; omega) (by simp [List.length_drop]; omega)]

theorem mergePairInChunk_eq_greedy (l : List Token) (a b : Token) :
    mergePairInChunk l (a, b) = mergeGreedy a b l :=
  mergePairInChunk_eq_greedyFuel a b l.length l le_rfl

/-! ## Lemmas about the pair frequency table -/

theorem bumpKey_cons_eq (k : List Nat) (v : Nat) (rest : List (List Nat × Nat)) :
    bumpKey ((k, v) :: rest) k = (k, v + 1) :: rest := by
  simp [bumpKey]

theorem bumpKey_lookup : ∀ (m : List (List Nat × Nat)) (k k' : List Nat),
    keyLookupD (bumpKey m k) k' = keyLookupD m k' + (if k = k' then 1 else 0)
  | [], k, k' => by
    by_cases h : k = k' <;> simp [bumpKey, keyLookupD, h]
  | (k0, v) :: rest, k, k' => by
    by_cases h0 : k0 = k
    · subst h0
      by_cases h : k0 = k'
      · simp [bumpKey, keyLookupD, h]
      · simp [bumpKey, keyLookupD, h]
    · simp only [bumpKey, if_neg h0]
      by_cases h : k0 = k'
      · subst h
        have hkk : k ≠ k0 := fun hh => h0 hh.symm
        simp [keyLookupD, hkk]
      · simp only [keyLookupD, if_neg h]
        exact bumpKey_lookup rest k k'

theorem countPairsInto_lookup : ∀ (c : List Token) (m : List (List Nat × Nat)) (key : List Nat),
    keyLookupD (countPairsInto m c) key = keyLookupD m key + countAdjKey key c
  | [], m, key => by simp [countPairsInto, countAdjKey]
  | [x], m, key => by simp [countPairsInto, countAdjKey]
  | x :: y :: rest, m, key => by
    simp only [countPairsInto, countAdjKey]
    rw [countPairsInto_lookup (y :: rest) (bumpKey m (pairKey x y)) key,
      bumpKey_lookup m (pairKey x y) key]
    by_cases h : pairKey x y = key <;> simp [h] <;> omega

theorem countsFoldl_lookup :
    ∀ (chunks : List (List Token)) (m : List (List Nat × Nat)) (key : List Nat),
      keyLookupD (chunks.foldl countPairsInto m) key
        = keyLookupD m key + (chunks.map (fun c => countAdjKey key c)).sum := by
  intro chunks
  induction chunks with
  | nil => intro m key; simp
  | cons c rest ih =>
    intro m key
    simp only [List.foldl_cons, List.map_cons, List.sum_cons]
    rw [ih (countPairsInto m c) key, countPairsInto_lookup c m key]
    omega

theorem counts_lookup (chunks : List (List Token)) (key : List Nat) :
    keyLookupD (countPairsAcrossChunks chunks) key
      = (chunks.map (fun c => countAdjKey key c)).sum := by
  have := countsFoldl_lookup chunks [] key
  simpa [countPairsAcrossChunks, keyLookupD] using this

theorem bumpKey_keys_mem : ∀ (m : List (List Nat × Nat)) (k k' : List Nat),
    k' ∈ (bumpKey m k).map Prod.fst ↔ k' ∈ m.map Prod.fst ∨ k' = k
  | [], k, k' => by simp [bumpKey, eq_comm]
  | (k0, v) :: rest, k, k' => by
    by_cases h0 : k0 = k
    · subst h0
      rw [bumpKey_cons_eq]
      simp only [List.map_cons, List.mem_cons]
      tauto
    · simp only [bumpKey, if_neg h0, List.map_cons, List.mem_cons]
      rw [bumpKey_keys_mem rest k k']
      tauto

theorem bumpKey_keys_nodup : ∀ (m : List (List Nat × Nat)) (k : List Nat),
    (m.map Prod.fst).Nodup → ((bumpKey m k).map Prod.fst).Nodup
  | [], k, _ => by simp [bumpKey]
  | (k0, v) :: rest, k, h => by
    simp only [List.map_cons, List.nodup_cons] at h
    by_cases h0 : k0 = k
    · subst h0
      simpa [bumpKey, List.nodup_cons] using h
    · simp only [bumpKey, if_neg h0, List.map_cons, List.nodup_cons]
      refine ⟨?_, bumpKey_keys_nodup rest k h.2⟩
      rw [bumpKey_keys_mem rest k k0]
      push_neg
      exact ⟨h.1, h0⟩

theorem countPairsInto_keys_nodup : ∀ (c : List Token) (m : List (List Nat × Nat)),
    (m.map Prod.fst).Nodup → ((countPairsInto m c).map Prod.fst).Nodup
  | [], m, h => h
  | [x], m, h => h
  | x :: y :: rest, m, h =>
    countPairsInto_keys_nodup (y :: rest) (bumpKey m (pairKey x y))
      (bumpKey_keys_nodup m (pairKey x y) h)

theorem counts_keys_nodup (chunks : List (List Token)) :
    ((countPairsAcrossChunks chunks).map Prod.fst).Nodup := by
  suffices h : ∀ (cs : List (List Token)) (m : List (List Nat × Nat)),
      (m.map Prod.fst).Nodup → ((cs.foldl countPairsInto m).map Prod.fst).Nodup by
    exact h chunks [] (by simp)
  intro cs
  induction cs with
  | nil => intro m h; exact h
  | cons c rest ih =>
    intro m h
    exact ih (countPairsInto m c) (countPairsInto_keys_nodup c m h)

theorem bumpKey_val_ge_one : ∀ (m : List (List Nat × Nat)) (k : List Nat),
    (∀ kv ∈ m, 1 ≤ kv.2) → ∀ kv ∈ bumpKey m k, 1 ≤ kv.2
  | [], k, _, kv, hkv => by
    simp only [bumpKey, List.mem_singleton] at hkv
    subst hkv
    exact le_refl 1
  | (k0, v) :: rest, k, h, kv, hkv => by
    by_cases h0 : k0 = k
    · subst h0
      rw [bumpKey_cons_eq] at hkv
      simp only [List.mem_cons] at hkv
      rcases hkv with rfl | hkv
      · simp
      · exact h kv (by simp [hkv])
    · simp only [bumpKey, if_neg h0, List.mem_cons] at hkv
      rcases hkv with rfl | hkv
      · exact h (k0, v) (by simp)
      · exact bumpKey_val_ge_one rest k (fun kv' hkv' => h kv' (by simp [hkv'])) kv hkv

theorem countPairsInto_val_ge_one : ∀ (c : List Token) (m : List (List Nat × Nat)),
    (∀ kv ∈ m, 1 ≤ kv.2) → ∀ kv ∈ countPairsInto m c, 1 ≤ kv.2
  | [], m, h => h
  | [x], m, h => h
  | x :: y :: rest, m, h =>
    countPairsInto_val_ge_one (y :: rest) (bumpKey m (pairKey x y))
      (bumpKey_val_ge_one m (pairKey x y) h)

theorem counts_val_ge_one (chunks : List (List Token)) :
    ∀ kv ∈ countPairsAcrossChunks chunks, 1 ≤ kv.2 := by
  suffices h : ∀ (cs : List (List Token)) (m : List (List Nat × Nat)),
      (∀ kv ∈ m, 1 ≤ kv.2) → ∀ kv ∈ cs.foldl countPairsInto m, 1 ≤ kv.2 by
    exact h chunks [] (by simp)
  intro cs
  induction cs with
  | nil => intro m h; exact h
  | cons c rest ih =>
    intro m h
    exact ih (countPairsInto m c) (countPairsInto_val_ge_one c m h)

theorem keyLookupD_of_mem : ∀ (m : List (List Nat × Nat)),
    (m.map Prod.fst).Nodup → ∀ kv ∈ m, keyLookupD m kv.1 = kv.2
  | [], _, kv, hkv => by simp at hkv
  | (k0, v) :: rest, h, kv, hkv => by
    simp only [List.map_cons, List.nodup_cons] at h
    simp only [List.mem_cons] at hkv
    rcases hkv with rfl | hkv
    · simp [keyLookupD]
    · have hne : k0 ≠ kv.1 := by
        intro he
        exact h.1 (he ▸ List.mem_map_of_mem Prod.fst hkv)
      simp only [keyLookupD, if_neg hne]
      exact keyLookupD_of_mem rest h.2 kv hkv

/-! ## Lemmas about pair keys and the NUL split -/

theorem pairKey_inj : ∀ (a a' b b' : Token), (0 : Nat) ∉ a → (0 : Nat) ∉ a' →
    pairKey a b = pairKey a' b' → a = a' ∧ b = b'
  | [], [], b, b', _, _, h => by
    simp only [pairKey, List.nil_append, List.cons.injEq] at h
    exact ⟨rfl, h.2⟩
  | [], c' :: t', b, b', _, ha', h => by
    simp only [pairKey, List.nil_append, List.cons_append, List.cons.injEq] at h
    exact absurd (h.1 ▸ List.mem_cons_self 0 t') ha'
  | c :: t, [], b, b', ha, _, h => by
    simp only [pairKey, List.nil_append, List.cons_append, List.cons.injEq] at h
    exact absurd (h.1.symm ▸ List.mem_cons_self 0 t) ha
  | c :: t, c' :: t', b, b', ha, ha', h => by
    simp only [pairKey, List.cons_append, List.cons.injEq] at h
    obtain ⟨rfl, h2⟩ := h
    have := pairKey_inj t t' b b' (fun hm => ha (List.mem_cons_of_mem c hm))
      (fun hm => ha' (List.mem_cons_of_mem c hm)) h2
    exact ⟨by rw [this.1], this.2⟩

theorem splitOnZero_no_zero : ∀ (b : List Nat), (0 : Nat) ∉ b → splitOnZero b = [b]
  | [], _ => rfl
  | c :: rest, h => by
    have hc : c ≠ 0 := fun hc => h (hc ▸ List.mem_cons_self c rest)
    have hr := splitOnZero_no_zero rest (fun hm => h (List.mem_cons_of_mem c hm))
    simp only [splitOnZero, if_neg hc, hr]

theorem splitOnZero_pairKey : ∀ (a b : Token), (0 : Nat) ∉ a → (0 : Nat) ∉ b →
    splitOnZero (pairKey a b) = [a, b]
  | [], b, _, hb => by
    simp [pairKey, splitOnZero, splitOnZero_no_zero b hb]
  | c :: t, b, ha, hb => by
    have hc : c ≠ 0 := fun hc => ha (hc ▸ List.mem_cons_self c t)
    have ht := splitOnZero_pairKey t b (fun hm => ha (List.mem_cons_of_mem c hm)) hb
    simp only [pairKey, List.cons_append] at ht ⊢
    simp only [splitOnZero, if_neg hc, ht]

theorem pairFromKey_pairKey (a b : Token) (ha : (0 : Nat) ∉ a) (hb : (0 : Nat) ∉ b) :
    pairFromKey (pairKey a b) = (a, b) := by
  simp [pairFromKey, splitOnZero_pairKey a b ha hb]

/-! ## Lemmas relating key counts to pair occurrences -/

theorem countAdj_le_countAdjKey : ∀ (c : List Token) (a b : Token),
    countAdj a b c ≤ countAdjKey (pairKey a b) c
  | [], _, _ => le_refl 0
  | [_], _, _ => le_refl 0
  | x :: y :: rest, a, b => by
    have := countAdj_le_countAdjKey (y :: rest) a b
    by_cases hxy : x = a ∧ y = b
    · obtain ⟨rfl, rfl⟩ := hxy
      simp only [countAdj, countAdjKey]
      simp
      omega
    · simp only [countAdj, countAdjKey, if_neg hxy]
      split <;> omega

theorem countAdjKey_eq_countAdj : ∀ (c : List Token) (a b : Token),
    (0 : Nat) ∉ a → (∀ t ∈ c, (0 : Nat) ∉ t) →
    countAdjKey (pairKey a b) c = countAdj a b c
  | [], _, _, _, _ => rfl
  | [_], _, _, _, _ => rfl
  | x :: y :: rest, a, b, ha, hc => by
    have ih := countAdjKey_eq_countAdj (y :: rest) a b ha
      (fun t ht => hc t (List.mem_cons_of_mem x ht))
    have hx : (0 : Nat) ∉ x := hc x (List.mem_cons_self x _)
    by_cases hkey : pairKey x y = pairKey a b
    · have := pairKey_inj x a y b hx ha hkey
      obtain ⟨rfl, rfl⟩ := this
      simp only [countAdjKey, countAdj, ih]
      simp
    · have hxy : ¬(x = a ∧ y = b) := by
        rintro ⟨rfl, rfl⟩
        exact hkey rfl
      simp only [countAdjKey, countAdj, if_neg hkey, if_neg hxy, ih]

theorem countAdjKey_pos_exists : ∀ (c : List Token) (key : List Nat),
    0 < countAdjKey key c →
    ∃ x y, pairKey x y = key ∧ x ∈ c ∧ y ∈ c ∧ 0 < countAdj x y c
  | [], key, h => by simp [countAdjKey] at h
  | [_], key, h => by simp [countAdjKey] at h
  | x :: y :: rest, key, h => by
    by_cases hkey : pairKey x y = key
    · refine ⟨x, y, hkey, List.mem_cons_self x _, by simp, ?_⟩
      simp only [countAdj]
      simp
    · simp only [countAdjKey, if_neg hkey, Nat.zero_add] at h
      obtain ⟨x', y', hk, hx', hy', hcount⟩ := countAdjKey_pos_exists (y :: rest) key h
      refine ⟨x', y', hk, List.mem_cons_of_mem x hx', List.mem_cons_of_mem x hy', ?_⟩
      simp only [countAdj]
      split <;> omega

/-! ## Lemmas about the selection loop -/

theorem selectBest_foldl_spec :
    ∀ (m : List (List Nat × Nat)) (acc : List Nat × Nat),
      (m.foldl (fun best kv => if kv.2 > best.2 then kv else best) acc = acc ∧
        ∀ kv ∈ m, kv.2 ≤ acc.2) ∨
      (∃ pre post,
        m = pre ++ (m.foldl (fun best kv => if kv.2 > best.2 then kv else best) acc) :: post ∧
        acc.2 < (m.foldl (fun best kv => if kv.2 > best.2 then kv else best) acc).2 ∧
        (∀ kv ∈ pre, kv.2 < (m.foldl (fun best kv => if kv.2 > best.2 then kv else best) acc).2) ∧
        (∀ kv ∈ m, kv.2 ≤ (m.foldl (fun best kv => if kv.2 > best.2 then kv else best) acc).2)) := by
  intro m
  induction m with
  | nil => intro acc; exact Or.inl ⟨rfl, by simp⟩
  | cons kv0 rest ih =>
    intro acc
    simp only [List.foldl_cons]
    by_cases hgt : kv0.2 > acc.2
    · rw [if_pos hgt]
      rcases ih kv0 with ⟨heq, hle⟩ | ⟨pre, post, hsplit, hacc, hpre, hle⟩
      · rw [heq]
        refine Or.inr ⟨[], rest, by simp, hgt, by simp, ?_⟩
        intro kv hkv
        rcases List.mem_cons.mp hkv with rfl | hkv
        · exact le_refl _
        · exact hle kv hkv
      · refine Or.inr ⟨kv0 :: pre, post, ?_, lt_trans hgt hacc, ?_, ?_⟩
        · conv_lhs => rw [hsplit]
          simp
        · intro kv hkv
          rcases List.mem_cons.mp hkv with rfl | hkv
          · exact hacc
          · exact hpre kv hkv
        · intro kv hkv
          rcases List.mem_cons.mp hkv with rfl | hkv
          · exact le_of_lt hacc
          · exact hle kv hkv
    · rw [if_neg hgt]
      rcases ih acc with ⟨heq, hle⟩ | ⟨pre, post, hsplit, hacc, hpre, hle⟩
      · rw [heq]
        refine Or.inl ⟨rfl, ?_⟩
        intro kv hkv
        rcases List.mem_cons.mp hkv with rfl | hkv
        · omega
        · exact hle kv hkv
      · refine Or.inr ⟨kv0 :: pre, post, ?_, hacc, ?_, ?_⟩
        · conv_lhs => rw [hsplit]
          simp
        · intro kv hkv
          rcases List.mem_cons.mp hkv with rfl | hkv
          · omega
          · exact hpre kv hkv
        · intro kv hkv
          rcases List.mem_cons.mp hkv with rfl | hkv
          · omega
          · exact hle kv hkv

theorem selectBest_spec (counts : List (List Nat × Nat)) (hne : counts ≠ [])
    (hval : ∀ kv ∈ counts, 1 ≤ kv.2) :
    ∃ pre post, counts = pre ++ selectBest counts :: post ∧
      (∀ kv ∈ pre, kv.2 < (selectBest counts).2) ∧
      (∀ kv ∈ counts, kv.2 ≤ (selectBest counts).2) := by
  rcases selectBest_foldl_spec counts ([], 0) with ⟨heq, hle⟩ | ⟨pre, post, h1, _, h3, h4⟩
  · obtain ⟨kv, hkv⟩ := List.exists_mem_of_ne_nil counts hne
    have hv := hval kv hkv
    have hl := hle kv hkv
    simp at hl
    omega
  · exact ⟨pre, post, h1, h3, h4⟩

theorem selectBest_foldl_le :
    ∀ (m : List (List Nat × Nat)) (acc : List Nat × Nat) (n : Nat),
      acc.2 ≤ n → (∀ kv ∈ m, kv.2 ≤ n) →
      (m.foldl (fun best kv => if kv.2 > best.2 then kv else best) acc).2 ≤ n := by
  intro m
  induction m with
  | nil => intro acc n h _; exact h
  | cons kv0 rest ih =>
    intro acc n h hall
    simp only [List.foldl_cons]
    by_cases hgt : kv0.2 > acc.2
    · rw [if_pos hgt]
      exact ih kv0 n (hall kv0 (by simp)) (fun kv hkv => hall kv (by simp [hkv]))
    · rw [if_neg hgt]
      exact ih acc n h (fun kv hkv => hall kv (by simp [hkv]))

theorem selectBest_le (counts : List (List Nat × Nat)) (n : Nat)
    (hall : ∀ kv ∈ counts, kv.2 ≤ n) : (selectBest counts).2 ≤ n :=
  selectBest_foldl_le counts ([], 0) n (Nat.zero_le n) hall

/-! ## Good tokens: code points at least 33, hence never the NUL separator -/

/-- Tokens whose code points are all at least 33 (the least code point the
byte-to-unicode table produces). -/
def goodToken (t : Token) : Prop := ∀ ch ∈ t, 33 ≤ ch

/-- Chunk states all of whose tokens are good. -/
def GoodChunks (chunks : List (List Token)) : Prop :=
  ∀ c ∈ chunks, ∀ t ∈ c, goodToken t

theorem goodToken_no_zero (t : Token) (h : goodToken t) : (0 : Nat) ∉ t :=
  fun h0 => by have := h 0 h0; omega

theorem goodToken_append (a b : Token) (ha : goodToken a) (hb : goodToken b) :
    goodToken (a ++ b) := by
  intro ch hch
  rcases List.mem_append.mp hch with h | h
  · exact ha ch h
  · exact hb ch h

theorem byteToUnicodeChar_ge_33 : ∀ b < 256, 33 ≤ byteToUnicodeChar b := by
  simp only [byteToUnicodeChar, byteTable_eq_lit]
  decide

theorem unicodeToByte_byteToUnicodeChar : ∀ b < 256, unicodeToByte (byteToUnicodeChar b) = b := by
  simp only [unicodeToByte, byteToUnicodeChar, byteTable_eq_lit]
  decide

/-! ## Helpers about flattening and total length -/

theorem length_flatten_eq_totalLen (chunks : List (List Token)) :
    chunks.flatten.length = totalLen chunks := by
  simp [totalLen, List.length_flatten]

theorem mergeChunks_totalLen_le (chunks : List (List Token)) (p : Token × Token) :
    totalLen (chunks.map (fun c => mergePairInChunk c p)) ≤ totalLen chunks := by
  induction chunks with
  | nil => simp [totalLen]
  | cons c rest ih =>
    simp only [totalLen, List.map_cons, List.sum_cons] at ih ⊢
    have := mergePairInChunk_length_le c p
    omega

theorem mergeChunks_totalLen_lt (chunks : List (List Token)) (a b : Token)
    (hex : ∃ c ∈ chunks, 0 < countAdj a b c) :
    totalLen (chunks.map (fun c => mergePairInChunk c (a, b))) < totalLen chunks := by
  induction chunks with
  | nil => simp at hex
  | cons c rest ih =>
    obtain ⟨c0, hc0, hcount⟩ := hex
    simp only [totalLen, List.map_cons, List.sum_cons] at ih ⊢
    rcases List.mem_cons.mp hc0 with rfl | hc0
    · have h1 := mergePairInChunk_lt_of_countAdj c0 a b hcount
      have h2 := mergeChunks_totalLen_le rest (a, b)
      simp only [totalLen] at h2
      omega
    · have h1 := mergePairInChunk_length_le c (a, b)
      have h2 := ih ⟨c0, hc0, hcount⟩
      omega

theorem mergeChunks_charConcat (chunks : List (List Token)) (p : Token × Token) :
    ((chunks.map (fun c => mergePairInChunk c p)).flatten).flatten
      = (chunks.flatten).flatten := by
  induction chunks with
  | nil => rfl
  | cons c rest ih =>
    simp only [List.map_cons, List.flatten_cons, List.flatten_append, ih,
      mergePairInChunk_flatten]

theorem mergeChunks_good (chunks : List (List Token)) (a b : Token)
    (hg : GoodChunks chunks) (hga : goodToken a) (hgb : goodToken b) :
    GoodChunks (chunks.map (fun c => mergePairInChunk c (a, b))) := by
  intro c' hc' t ht
  obtain ⟨c, hc, rfl⟩ := List.mem_map.mp hc'
  rcases mergePairInChunk_mem c (a, b) t ht with h | h
  · exact hg c hc t h
  · rw [h]; exact goodToken_append a b hga hgb

/-! ## The selected pair names tokens that really occur adjacently -/

theorem selected_pair_occurs (chunks : List (List Token))
    (hg : GoodChunks chunks)
    (hne : countPairsAcrossChunks chunks ≠ []) :
    ∃ a b, (selectBest (countPairsAcrossChunks chunks)).1 = pairKey a b ∧
      pairFromKey (selectBest (countPairsAcrossChunks chunks)).1 = (a, b) ∧
      goodToken a ∧ goodToken b ∧
      (∃ c ∈ chunks, 0 < countAdj a b c) := by
  have hval := counts_val_ge_one chunks
  obtain ⟨pre, post, hsplit, -, -⟩ := selectBest_spec _ hne hval
  have hmem : selectBest (countPairsAcrossChunks chunks) ∈ countPairsAcrossChunks chunks := by
    generalize hx : selectBest (countPairsAcrossChunks chunks) = x at hsplit ⊢
    rw [hsplit]
    simp
  have hlook := keyLookupD_of_mem _ (counts_keys_nodup chunks) _ hmem
  rw [counts_lookup] at hlook
  have hval2 : 1 ≤ (selectBest (countPairsAcrossChunks chunks)).2 := hval _ hmem
  obtain ⟨c, hc, hpos⟩ : ∃ c ∈ chunks,
      0 < countAdjKey (selectBest (countPairsAcrossChunks chunks)).1 c := by
    by_contra hcon
    push_neg at hcon
    have hzero : (chunks.map
        (fun c => countAdjKey (selectBest (countPairsAcrossChunks chunks)).1 c)).sum = 0 := by
      apply List.sum_eq_zero
      intro x hx
      obtain ⟨c, hcmem, rfl⟩ := List.mem_map.mp hx
      exact Nat.le_zero.mp (hcon c hcmem)
    omega
  obtain ⟨x, y, hk, hxmem, hymem, hcount⟩ := countAdjKey_pos_exists c _ hpos
  have hgx : goodToken x := hg c hc x hxmem
  have hgy : goodToken y := hg c hc y hymem
  refine ⟨x, y, hk.symm, ?_, hgx, hgy, ⟨c, hc, hcount⟩⟩
  rw [← hk]
  exact pairFromKey_pairKey x y (goodToken_no_zero x hgx) (goodToken_no_zero y hgy)

/-! ## Case analysis of one iteration of the merge loop -/

theorem bpeLoopFuel_eq_nil_or_cons (fuel : Nat) (chunks : List (List Token))
    (s : Nat) (m : Option Nat) :
    bpeLoopFuel (fuel + 1) chunks s m = [] ∨
    ∃ pair f,
      2 ≤ f ∧
      (∀ k, m = some k → s ≤ k) ∧
      pair = pairFromKey (selectBest (countPairsAcrossChunks chunks)).1 ∧
      f = (selectBest (countPairsAcrossChunks chunks)).2 ∧
      countPairsAcrossChunks chunks ≠ [] ∧
      bpeLoopFuel (fuel + 1) chunks s m =
        ⟨s, some pair, some f,
         some (pair.1 ++ pair.2),
         (chunks.map (fun c => mergePairInChunk c pair)).flatten⟩ ::
        bpeLoopFuel fuel (chunks.map (fun c => mergePairInChunk c pair)) (s + 1) m := by
  by_cases h1 : countPairsAcrossChunks chunks = []
  · left; simp [bpeLoopFuel, h1]
  · by_cases h2 : (selectBest (countPairsAcrossChunks chunks)).2 < 2
    · left; simp [bpeLoopFuel, h1, h2]
    · by_cases h3 : maxMergesHit m s = true
      · left; simp [bpeLoopFuel, h1, h2, h3]
      · right
        refine ⟨_, _, by omega, ?_, rfl, rfl, h1, ?_⟩
        · intro k hk
          subst hk
          simp [maxMergesHit] at h3
          omega
        · simp [bpeLoopFuel, h1, h2, h3]

/-! ## Invariants of the merge loop -/

theorem goodChunks_flatten (chunks : List (List Token)) (hg : GoodChunks chunks) :
    ∀ t ∈ chunks.flatten, goodToken t := by
  intro t ht
  obtain ⟨c, hc, htc⟩ := List.mem_flatten.mp ht
  exact hg c hc t htc

theorem bpeLoop_stepIndex : ∀ (fuel : Nat) (chunks : List (List Token)) (s : Nat)
    (m : Option Nat) (i : Nat) (st : BPEStep),
    (bpeLoopFuel fuel chunks s m)[i]? = some st → st.stepIndex = s + i := by
  intro fuel
  induction fuel with
  | zero => intro chunks s m i st hst; simp [bpeLoopFuel] at hst
  | succ f ih =>
    intro chunks s m i st hst
    rcases bpeLoopFuel_eq_nil_or_cons f chunks s m with hnil |
      ⟨pair, fr, hfr, hmm, hpair, hfreq, hne, heq⟩
    · rw [hnil] at hst; simp at hst
    · rw [heq] at hst
      match i with
      | 0 =>
        simp only [List.getElem?_cons_zero, Option.some.injEq] at hst
        subst hst
        rfl
      | j + 1 =>
        simp only [List.getElem?_cons_succ] at hst
        have := ih _ (s + 1) m j st hst
        omega

theorem bpeLoop_shape : ∀ (fuel : Nat) (chunks : List (List Token)) (s : Nat)
    (m : Option Nat), ∀ st ∈ bpeLoopFuel fuel chunks s m,
    ∃ a b fr, st.mergedPair = some (a, b) ∧ st.frequency = some fr ∧ 2 ≤ fr ∧
      st.newToken = some (a ++ b) := by
  intro fuel
  induction fuel with
  | zero => intro chunks s m st hst; simp [bpeLoopFuel] at hst
  | succ f ih =>
    intro chunks s m st hst
    rcases bpeLoopFuel_eq_nil_or_cons f chunks s m with hnil |
      ⟨pair, fr, hfr, hmm, hpair, hfreq, hne, heq⟩
    · rw [hnil] at hst; simp at hst
    · rw [heq] at hst
      rcases List.mem_cons.mp hst with rfl | hst
      · exact ⟨pair.1, pair.2, fr, rfl, rfl, hfr, rfl⟩
      · exact ih _ (s + 1) m st hst

theorem bpeLoop_maxMerges : ∀ (fuel : Nat) (chunks : List (List Token)) (s k : Nat),
    (bpeLoopFuel fuel chunks s (some k)).length ≤ k + 1 - s ∧
    ∀ st ∈ bpeLoopFuel fuel chunks s (some k), st.stepIndex ≤ k := by
  intro fuel
  induction fuel with
  | zero => intro chunks s k; simp [bpeLoopFuel]
  | succ f ih =>
    intro chunks s k
    rcases bpeLoopFuel_eq_nil_or_cons f chunks s (some k) with hnil |
      ⟨pair, fr, hfr, hmm, hpair, hfreq, hne, heq⟩
    · rw [hnil]; simp
    · rw [heq]
      have hsk : s ≤ k := hmm k rfl
      obtain ⟨ihlen, ihmem⟩ := ih (chunks.map (fun c => mergePairInChunk c pair)) (s + 1) k
      constructor
      · simp only [List.length_cons]
        omega
      · intro st hst
        rcases List.mem_cons.mp hst with rfl | hst
        · exact hsk
        · exact ihmem st hst

theorem bpeLoop_concat : ∀ (fuel : Nat) (chunks : List (List Token)) (s : Nat)
    (m : Option Nat), GoodChunks chunks →
    ∀ st ∈ bpeLoopFuel fuel chunks s m, st.tokens.flatten = chunks.flatten.flatten := by
  intro fuel
  induction fuel with
  | zero => intro chunks s m _ st hst; simp [bpeLoopFuel] at hst
  | succ f ih =>
    intro chunks s m hg st hst
    rcases bpeLoopFuel_eq_nil_or_cons f chunks s m with hnil |
      ⟨pair, fr, hfr, hmm, hpair, hfreq, hne, heq⟩
    · rw [hnil] at hst; simp at hst
    · rw [heq] at hst
      obtain ⟨a, b, hkey, hpfk, hga, hgb, hocc⟩ := selected_pair_occurs chunks hg hne
      have hpaireq : pair = (a, b) := by rw [hpair, hpfk]
      subst hpaireq
      rcases List.mem_cons.mp hst with rfl | hst
      · exact mergeChunks_charConcat chunks (a, b)
      · have hg2 := mergeChunks_good chunks a b hg hga hgb
        have := ih (chunks.map (fun c => mergePairInChunk c (a, b))) (s + 1) m hg2 st hst
        rw [this, mergeChunks_charConcat chunks (a, b)]

theorem bpeLoop_good : ∀ (fuel : Nat) (chunks : List (List Token)) (s : Nat)
    (m : Option Nat), GoodChunks chunks →
    ∀ st ∈ bpeLoopFuel fuel chunks s m, ∀ t ∈ st.tokens, goodToken t := by
  intro fuel
  induction fuel with
  | zero => intro chunks s m _ st hst; simp [bpeLoopFuel] at hst
  | succ f ih =>
    intro chunks s m hg st hst
    rcases bpeLoopFuel_eq_nil_or_cons f chunks s m with hnil |
      ⟨pair, fr, hfr, hmm, hpair, hfreq, hne, heq⟩
    · rw [hnil] at hst; simp at hst
    · rw [heq] at hst
      obtain ⟨a, b, hkey, hpfk, hga, hgb, hocc⟩ := selected_pair_occurs chunks hg hne
      have hpaireq : pair = (a, b) := by rw [hpair, hpfk]
      subst hpaireq
      have hg2 := mergeChunks_good chunks a b hg hga hgb
      rcases List.mem_cons.mp hst with rfl | hst
      · exact goodChunks_flatten _ hg2
      · exact ih (chunks.map (fun c => mergePairInChunk c (a, b))) (s + 1) m hg2 st hst

theorem bpeLoop_dec : ∀ (fuel : Nat) (chunks : List (List Token)) (s : Nat)
    (m : Option Nat), GoodChunks chunks →
    (∀ st : BPEStep, (bpeLoopFuel fuel chunks s m)[0]? = some st →
      st.tokens.length < totalLen chunks) ∧
    (∀ (i : Nat) (st st2 : BPEStep), (bpeLoopFuel fuel chunks s m)[i]? = some st →
      (bpeLoopFuel fuel chunks s m)[i + 1]? = some st2 →
      st2.tokens.length < st.tokens.length) := by
  intro fuel
  induction fuel with
  | zero =>
    intro chunks s m _
    constructor
    · intro st hst; simp [bpeLoopFuel] at hst
    · intro i st st2 hst hst2; simp [bpeLoopFuel] at hst
  | succ f ih =>
    intro chunks s m hg
    rcases bpeLoopFuel_eq_nil_or_cons f chunks s m with hnil |
      ⟨pair, fr, hfr, hmm, hpair, hfreq, hne, heq⟩
    · rw [hnil]
      constructor
      · intro st hst; simp at hst
      · intro i st st2 hst hst2; simp at hst
    · rw [heq]
      obtain ⟨a, b, hkey, hpfk, hga, hgb, hocc⟩ := selected_pair_occurs chunks hg hne
      have hpaireq : pair = (a, b) := by rw [hpair, hpfk]
      subst hpaireq
      have hg2 := mergeChunks_good chunks a b hg hga hgb
      have hlt := mergeChunks_totalLen_lt chunks a b hocc
      obtain ⟨ih1, ih2⟩ := ih (chunks.map (fun c => mergePairInChunk c (a, b))) (s + 1) m hg2
      constructor
      · intro st hst
        simp only [List.getElem?_cons_zero, Option.some.injEq] at hst
        subst hst
        simp only [length_flatten_eq_totalLen]
        exact hlt
      · intro i st st2 hst hst2
        match i with
        | 0 =>
          simp only [List.getElem?_cons_zero, Option.some.injEq] at hst
          simp only [List.getElem?_cons_succ] at hst2
          subst hst
          have := ih1 st2 hst2
          simp only [length_flatten_eq_totalLen]
          omega
        | j + 1 =>
          simp only [List.getElem?_cons_succ] at hst hst2
          exact ih2 j st st2 hst hst2

/-! ## Assembly lemmas for runBPE -/

theorem runBPE_eq_cons (text : List Nat) (m : Option Nat) (h : text ≠ []) :
    runBPE text m =
      ⟨⟨0, none, none, none, ((gpt2Tokenize text).map encodeChunk).flatten⟩ ::
        bpeLoopFuel (totalLen ((gpt2Tokenize text).map encodeChunk))
          ((gpt2Tokenize text).map encodeChunk) 1 m⟩ := by
  have hlen : text.length ≠ 0 := fun hl => h (List.eq_nil_of_length_eq_zero hl)
  have hms : gpt2Tokenize text ≠ [] := gpt2Tokenize_ne_nil text h
  have hmslen : (gpt2Tokenize text).length ≠ 0 :=
    fun hl => hms (List.eq_nil_of_length_eq_zero hl)
  simp [runBPE, hlen, hmslen]

theorem initialChunks_good (text : List Nat) (hv : ValidText text) :
    GoodChunks ((gpt2Tokenize text).map encodeChunk) := by
  intro c hc t ht
  obtain ⟨ch, hch, rfl⟩ := List.mem_map.mp hc
  simp only [encodeChunk, List.mem_map] at ht
  obtain ⟨b, hb, rfl⟩ := ht
  have hchars : ∀ x ∈ ch, validChar x = true := by
    intro x hx
    apply hv
    rw [← gpt2Tokenize_flatten text]
    exact List.mem_flatten.mpr ⟨ch, hch, hx⟩
  have hb256 : b < 256 := utf8Encode_lt_256 ch hchars b hb
  intro c0 hc0
  simp only [List.mem_singleton] at hc0
  subst hc0
  exact byteToUnicodeChar_ge_33 b hb256

theorem flatten_map_singleton (l : List Nat) (f : Nat → Nat) :
    (l.map (fun b => [f b])).flatten = l.map f := by
  induction l with
  | nil => rfl
  | cons c rest ih => simp [ih]

theorem chunksConcat_utf8 : ∀ ms : List (List Nat),
    ((ms.map encodeChunk).flatten).flatten
      = (utf8Encode ms.flatten).map (fun b => byteToUnicodeChar b) := by
  intro ms
  induction ms with
  | nil => rfl
  | cons ch rest ih =>
    simp only [List.map_cons, List.flatten_cons, List.flatten_append, ih,
      utf8Encode_append, List.map_append]
    congr 1
    exact flatten_map_singleton (utf8Encode ch) (fun b => byteToUnicodeChar b)

theorem initialChunks_charConcat (text : List Nat) :
    (((gpt2Tokenize text).map encodeChunk).flatten).flatten
      = (utf8Encode text).map (fun b => byteToUnicodeChar b) := by
  rw [chunksConcat_utf8, gpt2Tokenize_flatten]

theorem map_unicodeToByte_map (bs : List Nat) (h : ∀ b ∈ bs, b < 256) :
    (bs.map (fun b => byteToUnicodeChar b)).map (fun c => unicodeToByte c) = bs := by
  induction bs with
  | nil => rfl
  | cons b rest ih =>
    simp only [List.map_cons, List.cons.injEq]
    exact ⟨unicodeToByte_byteToUnicodeChar b (h b (by simp)),
      ih (fun x hx => h x (by simp [hx]))⟩

/-! ## The fuel instantiation is faithful to the unbounded loop -/

theorem countPairsInto_nil_arg (m : List (List Nat × Nat)) : countPairsInto m [] = m := rfl

theorem countPairs_nil_of_totalLen_zero (chunks : List (List Token))
    (h : totalLen chunks = 0) :
    countPairsAcrossChunks chunks = [] := by
  suffices hall : ∀ cs : List (List Token), (∀ c ∈ cs, c = []) →
      ∀ m, cs.foldl countPairsInto m = m by
    have hempty : ∀ c ∈ chunks, c = [] := by
      intro c hc
      simp only [totalLen] at h
      have hz : c.length = 0 := by
        have := (List.sum_eq_zero_iff).mp h c.length (List.mem_map_of_mem List.length hc)
        exact this
      exact List.eq_nil_of_length_eq_zero hz
    exact hall chunks hempty []
  intro cs
  induction cs with
  | nil => intro _ m; rfl
  | cons c rest ih =>
    intro hcs m
    have hc : c = [] := hcs c (by simp)
    subst hc
    simp only [List.foldl_cons, countPairsInto_nil_arg]
    exact ih (fun c hc => hcs c (by simp [hc])) m

theorem bpeLoopFuel_stable : ∀ (f1 f2 : Nat) (chunks : List (List Token)) (s : Nat)
    (m : Option Nat), GoodChunks chunks → totalLen chunks ≤ f1 → totalLen chunks ≤ f2 →
    bpeLoopFuel f1 chunks s m = bpeLoopFuel f2 chunks s m := by
  intro f1
  induction f1 with
  | zero =>
    intro f2 chunks s m hg h1 h2
    have hnil := countPairs_nil_of_totalLen_zero chunks (by omega)
    match f2 with
    | 0 => rfl
    | g + 1 => simp [bpeLoopFuel, hnil]
  | succ f ih =>
    intro f2 chunks s m hg h1 h2
    match f2 with
    | 0 =>
      have hnil := countPairs_nil_of_totalLen_zero chunks (by omega)
      simp [bpeLoopFuel, hnil]
    | g + 1 =>
      by_cases hc1 : countPairsAcrossChunks chunks = []
      · simp [bpeLoopFuel, hc1]
      · by_cases hc2 : (selectBest (countPairsAcrossChunks chunks)).2 < 2
        · simp [bpeLoopFuel, hc1, hc2]
        · by_cases hc3 : maxMergesHit m s = true
          · simp [bpeLoopFuel, hc1, hc2, hc3]
          · obtain ⟨a, b, hkey, hpfk, hga, hgb, hocc⟩ := selected_pair_occurs chunks hg hc1
            have hlt := mergeChunks_totalLen_lt chunks a b hocc
            have hg2 := mergeChunks_good chunks a b hg hga hgb
            have hstep : ∀ fu, bpeLoopFuel (fu + 1) chunks s m =
                ⟨s, some (a, b), some (selectBest (countPairsAcrossChunks chunks)).2,
                 some (a ++ b),
                 (chunks.map (fun c => mergePairInChunk c (a, b))).flatten⟩ ::
                bpeLoopFuel fu (chunks.map (fun c => mergePairInChunk c (a, b))) (s + 1) m := by
              intro fu
              simp [bpeLoopFuel, hc1, hc2, hc3, hpfk]
            rw [hstep f, hstep g]
            congr 1
            exact ih g _ (s + 1) m hg2 (by omega) (by omega)

theorem keyLookupD_le : ∀ (m : List (List Nat × Nat)) (k : List Nat) (n : Nat),
    (∀ kv ∈ m, kv.2 ≤ n) → keyLookupD m k ≤ n
  | [], _, _, _ => Nat.zero_le _
  | (k0, v) :: rest, k, n, h => by
    by_cases hk : k0 = k
    · simp only [keyLookupD, if_pos hk]
      exact h (k0, v) (by simp)
    · simp only [keyLookupD, if_neg hk]
      exact keyLookupD_le rest k n (fun kv hkv => h kv (by simp [hkv]))

/-! ## Claim theorems -/

/-- C1. The merge pass replaces every non-overlapping left-to-right occurrence
of the chosen adjacent pair with the single concatenated token, resuming the
scan after each merged position: mergePairInChunk coincides with the greedy
first-occurrence replacement mergeGreedy modelled from the spec, and on
[a, a, b] with a distinct pair (a, b) only the second position merges,
giving [a, a ++ b]. -/
theorem mergePass_is_greedy_left_to_right (tokens : List Token) (a b : Token) :
    mergePairInChunk tokens (a, b) = mergeGreedy a b tokens ∧
    (a ≠ b → mergePairInChunk [a, a, b] (a, b) = [a, a ++ b]) := by
  refine ⟨mergePairInChunk_eq_greedy tokens a b, ?_⟩
  intro hne
  have h1 : ¬(a = a ∧ a = b) := fun hh => hne hh.2
  show (if a = a ∧ a = b then (a ++ b) :: mergePairInChunk [b] (a, b)
        else a :: mergePairInChunk [a, b] (a, b)) = [a, a ++ b]
  rw [if_neg h1]
  show a :: (if a = a ∧ b = b then (a ++ b) :: mergePairInChunk [] (a, b)
        else a :: mergePairInChunk [b] (a, b)) = [a, a ++ b]
  rw [if_pos (And.intro rfl rfl)]
  rfl

/-- Witness for C1 at the concrete tokens [1] and [2]. -/
theorem mergePass_greedy_witness :
    ([1] : Token) ≠ [2] ∧ mergePairInChunk [[1], [1], [2]] ([1], [2]) = [[1], [1, 2]] :=
  ⟨by decide, (mergePass_is_greedy_left_to_right [] [1] [2]).2 (by decide)⟩

/-- C2. For every valid input text and every step of the trace, concatenating
the tokens of the step and mapping each code point back through the inverse
of the byte-to-unicode table reconstructs exactly the UTF-8 byte sequence of
the input; the pre-tokenizer chunks are non-empty and concatenate to the
input. -/
theorem trace_concatenation_invariant (text : List Nat) (m : Option Nat)
    (hv : ValidText text) :
    (∀ c ∈ gpt2Tokenize text, c ≠ []) ∧
    (gpt2Tokenize text).flatten = text ∧
    ∀ st ∈ (runBPE text m).steps,
      (st.tokens.flatten).map (fun c => unicodeToByte c) = utf8Encode text := by
  refine ⟨gpt2Tokenize_mem_ne_nil text, gpt2Tokenize_flatten text, ?_⟩
  intro st hst
  by_cases htext : text = []
  · subst htext
    simp [runBPE] at hst
  · rw [runBPE_eq_cons text m htext] at hst
    have hg := initialChunks_good text hv
    have hbytes : ∀ b ∈ utf8Encode text, b < 256 := utf8Encode_lt_256 text hv
    have hconcat : st.tokens.flatten
        = (utf8Encode text).map (fun b => byteToUnicodeChar b) := by
      rcases List.mem_cons.mp hst with rfl | hst
      · exact initialChunks_charConcat text
      · rw [bpeLoop_concat _ _ 1 m hg st hst, initialChunks_charConcat text]
    rw [hconcat]
    exact map_unicodeToByte_map (utf8Encode text) hbytes

/-- Witness for C2 at the concrete text "hi" (code points 104, 105). -/
theorem trace_concatenation_witness :
    (∀ c ∈ gpt2Tokenize [104, 105], c ≠ []) ∧
    (gpt2Tokenize [104, 105]).flatten = [104, 105] ∧
    ∀ st ∈ (runBPE [104, 105] none).steps,
      (st.tokens.flatten).map (fun c => unicodeToByte c) = utf8Encode [104, 105] :=
  trace_concatenation_invariant [104, 105] none (by decide)

/-- C3. With NUL-free chunks and a non-empty frequency table, the selection
loop picks an entry whose key names a pair (a, b); the stored frequency is
the number of adjacent occurrences of (a, b) aggregated across all chunks;
it is maximal among all pairs; and every entry encountered before the
selected one in the first-encounter scan order has a strictly smaller
frequency. -/
theorem selection_highest_frequency_first_encountered
    (chunks : List (List Token))
    (hnf : ∀ c ∈ chunks, ∀ t ∈ c, (0 : Nat) ∉ t)
    (hne : countPairsAcrossChunks chunks ≠ []) :
    ∃ a b pre post,
      selectBest (countPairsAcrossChunks chunks)
        = (pairKey a b, (chunks.map (fun c => countAdj a b c)).sum) ∧
      countPairsAcrossChunks chunks
        = pre ++ selectBest (countPairsAcrossChunks chunks) :: post ∧
      (∀ kv ∈ pre, kv.2 < (selectBest (countPairsAcrossChunks chunks)).2) ∧
      (∀ a2 b2 : Token, (chunks.map (fun c => countAdj a2 b2 c)).sum
        ≤ (selectBest (countPairsAcrossChunks chunks)).2) := by
  have hval := counts_val_ge_one chunks
  obtain ⟨pre, post, hsplit, hpre, hle⟩ := selectBest_spec _ hne hval
  have hmem : selectBest (countPairsAcrossChunks chunks) ∈ countPairsAcrossChunks chunks := by
    generalize hx : selectBest (countPairsAcrossChunks chunks) = x at hsplit ⊢
    rw [hsplit]
    simp
  have hlook := keyLookupD_of_mem _ (counts_keys_nodup chunks) _ hmem
  rw [counts_lookup] at hlook
  have hval2 : 1 ≤ (selectBest (countPairsAcrossChunks chunks)).2 := hval _ hmem
  obtain ⟨c, hc, hpos⟩ : ∃ c ∈ chunks,
      0 < countAdjKey (selectBest (countPairsAcrossChunks chunks)).1 c := by
    by_contra hcon
    push_neg at hcon
    have hzero : (chunks.map
        (fun c => countAdjKey (selectBest (countPairsAcrossChunks chunks)).1 c)).sum = 0 := by
      apply List.sum_eq_zero
      intro x hx
      obtain ⟨c, hcmem, rfl⟩ := List.mem_map.mp hx
      exact Nat.le_zero.mp (hcon c hcmem)
    omega
  obtain ⟨a, b, hk, hamem, hbmem, hcount⟩ := countAdjKey_pos_exists c _ hpos
  have hnfa : (0 : Nat) ∉ a := hnf c hc a hamem
  have hsumeq : (chunks.map
      (fun c2 => countAdjKey (selectBest (countPairsAcrossChunks chunks)).1 c2)).sum
      = (chunks.map (fun c2 => countAdj a b c2)).sum := by
    apply congrArg List.sum
    apply List.map_congr_left
    intro c2 hc2
    rw [← hk]
    exact countAdjKey_eq_countAdj c2 a b hnfa (hnf c2 hc2)
  refine ⟨a, b, pre, post, ?_, hsplit, hpre, ?_⟩
  · have hfst : (selectBest (countPairsAcrossChunks chunks)).1 = pairKey a b := hk.symm
    have hsnd : (selectBest (countPairsAcrossChunks chunks)).2
        = (chunks.map (fun c2 => countAdj a b c2)).sum := by
      rw [hlook] at hsumeq
      exact hsumeq
    calc selectBest (countPairsAcrossChunks chunks)
        = ((selectBest (countPairsAcrossChunks chunks)).1,
           (selectBest (countPairsAcrossChunks chunks)).2) := rfl
      _ = (pairKey a b, (chunks.map (fun c2 => countAdj a b c2)).sum) := by
          rw [hfst, hsnd]
  · intro a2 b2
    have h1 : (chunks.map (fun c2 => countAdj a2 b2 c2)).sum
        ≤ (chunks.map (fun c2 => countAdjKey (pairKey a2 b2) c2)).sum := by
      apply List.sum_le_sum
      intro c2 hc2
      exact countAdj_le_countAdjKey c2 a2 b2
    have h2 : (chunks.map (fun c2 => countAdjKey (pairKey a2 b2) c2)).sum
        = keyLookupD (countPairsAcrossChunks chunks) (pairKey a2 b2) :=
      (counts_lookup chunks (pairKey a2 b2)).symm
    have h3 : keyLookupD (countPairsAcrossChunks chunks) (pairKey a2 b2)
        ≤ (selectBest (countPairsAcrossChunks chunks)).2 :=
      keyLookupD_le _ _ _ hle
    omega

/-- Witness for C3 at a single chunk whose token sequence is
[[1], [2], [1], [2]]. -/
theorem selection_witness :
    ∃ a b pre post,
      selectBest (countPairsAcrossChunks [[[1], [2], [1], [2]]])
        = (pairKey a b, ([[[1], [2], [1], [2]]].map (fun c => countAdj a b c)).sum) ∧
      countPairsAcrossChunks [[[1], [2], [1], [2]]]
        = pre ++ selectBest (countPairsAcrossChunks [[[1], [2], [1], [2]]]) :: post ∧
      (∀ kv ∈ pre, kv.2 < (selectBest (countPairsAcrossChunks [[[1], [2], [1], [2]]])).2) ∧
      (∀ a2 b2 : Token, ([[[1], [2], [1], [2]]].map (fun c => countAdj a2 b2 c)).sum
        ≤ (selectBest (countPairsAcrossChunks [[[1], [2], [1], [2]]])).2) :=
  selection_highest_frequency_first_encountered [[[1], [2], [1], [2]]]
    (by decide) (by decide)

/-- C4. With a positive merge bound k, the returned trace has at most k + 1
steps and every recorded stepIndex is at most k. -/
theorem maxMerges_bound (text : List Nat) (k : Nat) (hk : 0 < k) :
    (runBPE text (some k)).steps.length ≤ k + 1 ∧
    ∀ st ∈ (runBPE text (some k)).steps, st.stepIndex ≤ k := by
  by_cases htext : text = []
  · subst htext
    constructor
    · simp [runBPE]
    · intro st hst; simp [runBPE] at hst
  · rw [runBPE_eq_cons text (some k) htext]
    obtain ⟨hlen, hmem⟩ := bpeLoop_maxMerges
      (totalLen ((gpt2Tokenize text).map encodeChunk))
      ((gpt2Tokenize text).map encodeChunk) 1 k
    constructor
    · simp only [List.length_cons]
      omega
    · intro st hst
      rcases List.mem_cons.mp hst with rfl | hst
      · exact Nat.zero_le k
      · exact hmem st hst

/-- Witness for C4 at the text "a" and bound 1. -/
theorem maxMerges_bound_witness :
    (runBPE [97] (some 1)).steps.length ≤ 2 ∧
    ∀ st ∈ (runBPE [97] (some 1)).steps, st.stepIndex ≤ 1 :=
  maxMerges_bound [97] 1 (by decide)

theorem bpeLoopFuel_nil_of_lowfreq (fuel : Nat) (chunks : List (List Token)) (s : Nat)
    (m : Option Nat) (h : (selectBest (countPairsAcrossChunks chunks)).2 < 2) :
    bpeLoopFuel fuel chunks s m = [] := by
  match fuel with
  | 0 => rfl
  | f + 1 =>
    by_cases hc1 : countPairsAcrossChunks chunks = []
    · simp [bpeLoopFuel, hc1]
    · simp [bpeLoopFuel, hc1, h]

/-- C5. Every step beyond index 0 records a frequency of at least 2; when no
adjacent pair of the initial chunks occurs more than once, the trace
contains only step 0. -/
theorem frequency_floor (text : List Nat) (m : Option Nat) :
    (∀ st ∈ (runBPE text m).steps, 0 < st.stepIndex →
      ∃ f, st.frequency = some f ∧ 2 ≤ f) ∧
    ((∀ kv ∈ countPairsAcrossChunks ((gpt2Tokenize text).map encodeChunk), kv.2 ≤ 1) →
      ∀ st ∈ (runBPE text m).steps, st.stepIndex = 0) := by
  constructor
  · intro st hst hpos
    by_cases htext : text = []
    · subst htext; simp [runBPE] at hst
    · rw [runBPE_eq_cons text m htext] at hst
      rcases List.mem_cons.mp hst with rfl | hst
      · simp at hpos
      · obtain ⟨a, b, fr, _, hfreq, hfr, _⟩ := bpeLoop_shape _ _ 1 m st hst
        exact ⟨fr, hfreq, hfr⟩
  · intro hle st hst
    by_cases htext : text = []
    · subst htext; simp [runBPE] at hst
    · rw [runBPE_eq_cons text m htext] at hst
      have hbest := selectBest_le _ 1 hle
      rw [bpeLoopFuel_nil_of_lowfreq _ _ 1 m (by omega)] at hst
      simp only [List.mem_singleton] at hst
      subst hst
      rfl

/-- Witness for C5 at the single-letter text "a", where no pair exists. -/
theorem frequency_floor_witness :
    ∀ st ∈ (runBPE [97] none).steps, st.stepIndex = 0 :=
  (frequency_floor [97] none).2 (by decide)

/-- C7. The token count strictly decreases between consecutive steps of every
trace of a valid text, and the decrease of one merge pass over a chunk
equals the number of replacements it applies. -/
theorem token_count_strict_decrease (text : List Nat) (m : Option Nat)
    (hv : ValidText text) :
    (∀ (i : Nat) (st st2 : BPEStep), (runBPE text m).steps[i]? = some st →
      (runBPE text m).steps[i + 1]? = some st2 →
      st2.tokens.length < st.tokens.length) ∧
    (∀ (c : List Token) (p : Token × Token),
      (mergePairInChunk c p).length = c.length - mergeCount p c) := by
  constructor
  · intro i st st2 hst hst2
    by_cases htext : text = []
    · subst htext; simp [runBPE] at hst
    · rw [runBPE_eq_cons text m htext] at hst hst2
      have hg := initialChunks_good text hv
      obtain ⟨hd1, hd2⟩ := bpeLoop_dec
        (totalLen ((gpt2Tokenize text).map encodeChunk))
        ((gpt2Tokenize text).map encodeChunk) 1 m hg
      cases i with
      | zero =>
        simp only [List.getElem?_cons_zero, Option.some.injEq] at hst
        simp only [List.getElem?_cons_succ] at hst2
        subst hst
        have hlt := hd1 st2 hst2
        simp only [length_flatten_eq_totalLen]
        exact hlt
      | succ j =>
        simp only [List.getElem?_cons_succ] at hst hst2
        exact hd2 j st st2 hst hst2
  · intro c p
    have := mergePairInChunk_length c p
    omega

/-- Witness for C7 at the text "a". -/
theorem token_count_decrease_witness :
    (∀ (i : Nat) (st st2 : BPEStep), (runBPE [97] none).steps[i]? = some st →
      (runBPE [97] none).steps[i + 1]? = some st2 →
      st2.tokens.length < st.tokens.length) ∧
    (∀ (c : List Token) (p : Token × Token),
      (mergePairInChunk c p).length = c.length - mergeCount p c) :=
  token_count_strict_decrease [97] none (by decide)

/-- C8 counterexample. The whitespace-only input " " (the single code point
32) yields a trace with one step rather than an empty trace: the pattern
matches the lone space, so step 0 is recorded. -/
theorem whitespace_input_nonempty_trace : (runBPE [32] none).steps.length = 1 := by
  decide

/-- C8 amended. runBPE never errors; it returns the empty trace exactly for
the empty input: runBPE("") = ⟨[]⟩, and every non-empty input (a
whitespace-only input included) produces a trace containing at least
step 0, because the pre-tokenizer always finds a match in non-empty input. -/
theorem empty_trace_iff_empty_input (text : List Nat) (m : Option Nat) :
    (runBPE [] m).steps = [] ∧ (text ≠ [] → (runBPE text m).steps ≠ []) := by
  constructor
  · simp [runBPE]
  · intro h
    rw [runBPE_eq_cons text m h]
    simp

/-- Witness for C8 at the whitespace-only text " ". -/
theorem empty_trace_witness : (runBPE [32] none).steps ≠ [] :=
  (empty_trace_iff_empty_input [32] none).2 (by decide)

/-- C9. In every step of every trace of a valid text, every code point of
every token is at least 33 (so no token ever contains the NUL separator);
the NUL-joined pair key is injective on NUL-free tokens; and splitting the
key of a NUL-free pair on NUL recovers exactly the two tokens. -/
theorem nul_separator_safe (text : List Nat) (m : Option Nat) (hv : ValidText text) :
    (∀ st ∈ (runBPE text m).steps, ∀ t ∈ st.tokens, ∀ ch ∈ t, 33 ≤ ch) ∧
    (∀ a a2 b b2 : Token, (0 : Nat) ∉ a → (0 : Nat) ∉ a2 →
      pairKey a b = pairKey a2 b2 → a = a2 ∧ b = b2) ∧
    (∀ a b : Token, (0 : Nat) ∉ a → (0 : Nat) ∉ b →
      splitOnZero (pairKey a b) = [a, b]) := by
  refine ⟨?_, pairKey_inj, splitOnZero_pairKey⟩
  intro st hst t ht ch hch
  by_cases htext : text = []
  · subst htext; simp [runBPE] at hst
  · rw [runBPE_eq_cons text m htext] at hst
    have hg := initialChunks_good text hv
    rcases List.mem_cons.mp hst with rfl | hst
    · exact goodChunks_flatten _ hg t ht ch hch
    · exact bpeLoop_good _ _ 1 m hg st hst t ht ch hch

/-- Witness for C9 at the text "ab". -/
theorem nul_separator_witness :
    (∀ st ∈ (runBPE [97, 98] none).steps, ∀ t ∈ st.tokens, ∀ ch ∈ t, 33 ≤ ch) ∧
    (∀ a a2 b b2 : Token, (0 : Nat) ∉ a → (0 : Nat) ∉ a2 →
      pairKey a b = pairKey a2 b2 → a = a2 ∧ b = b2) ∧
    (∀ a b : Token, (0 : Nat) ∉ a → (0 : Nat) ∉ b →
      splitOnZero (pairKey a b) = [a, b]) :=
  nul_separator_safe [97, 98] none (by decide)

/-- C10. stepIndex equals the position of the step in the trace; step 0 has
null mergedPair, frequency and newToken; every later step has all three
non-null, with newToken the concatenation of the merged pair. -/
theorem step_fields_consistent (text : List Nat) (m : Option Nat) :
    ∀ (i : Nat) (st : BPEStep), (runBPE text m).steps[i]? = some st →
      st.stepIndex = i ∧
      (i = 0 → st.mergedPair = none ∧ st.frequency = none ∧ st.newToken = none) ∧
      (0 < i → ∃ a b f, st.mergedPair = some (a, b) ∧ st.frequency = some f ∧
        st.newToken = some (a ++ b)) := by
  intro i st hst
  by_cases htext : text = []
  · subst htext; simp [runBPE] at hst
  · rw [runBPE_eq_cons text m htext] at hst
    cases i with
    | zero =>
      simp only [List.getElem?_cons_zero, Option.some.injEq] at hst
      subst hst
      exact ⟨rfl, fun _ => ⟨rfl, rfl, rfl⟩, fun h => absurd h (by omega)⟩
    | succ j =>
      simp only [List.getElem?_cons_succ] at hst
      have hidx := bpeLoop_stepIndex _ _ 1 m j st hst
      have hmem : st ∈ bpeLoopFuel (totalLen ((gpt2Tokenize text).map encodeChunk))
          ((gpt2Tokenize text).map encodeChunk) 1 m := by
        have := List.getElem?_eq_some_iff.mp hst
        obtain ⟨h, rfl⟩ := this
        exact List.getElem_mem h
      obtain ⟨a, b, fr, hmp, hfreq, _, hnt⟩ := bpeLoop_shape _ _ 1 m st hmem
      refine ⟨by omega, fun h0 => absurd h0 (by omega), fun _ => ⟨a, b, fr, hmp, hfreq, hnt⟩⟩

/-- Witness for C10 at the text "a" and position 0. -/
theorem step_fields_witness :
    (⟨0, none, none, none, [[97]]⟩ : BPEStep).stepIndex = 0 ∧
    ((0 : Nat) = 0 → (⟨0, none, none, none, [[97]]⟩ : BPEStep).mergedPair = none ∧
      (⟨0, none, none, none, [[97]]⟩ : BPEStep).frequency = none ∧
      (⟨0, none, none, none, [[97]]⟩ : BPEStep).newToken = none) ∧
    ((0 : Nat) < 0 → ∃ a b f,
      (⟨0, none, none, none, [[97]]⟩ : BPEStep).mergedPair = some (a, b) ∧
      (⟨0, none, none, none, [[97]]⟩ : BPEStep).frequency = some f ∧
      (⟨0, none, none, none, [[97]]⟩ : BPEStep).newToken = some (a ++ b)) :=
  step_fields_consistent [97] none 0 ⟨0, none, none, none, [[97]]⟩ (by decide)

/-- Witness for C6 at the concrete byte 65. -/
theorem byteMapper_witness :
    (65 : Nat) < 256 ∧ (BYTE_TO_UNICODE.map Prod.fst).contains 65 = true :=
  ⟨by decide, byteMapper_bijective_ranges.2.1 65 (by decide)⟩
